import Mathlib

/-!
Verification of the narrative-generation / model-fallback layer of the
AI Audit Report generator (llm_executor.js, llm_batch_executor.js,
puter_adapter.js and the surrounding pipeline).

Strings are modelled as `List Char`.  Each JavaScript regex operation that
the claims depend on is embedded as an explicit character-level scanner
that mirrors the engine's leftmost-match / advance-by-one behaviour for
the concrete pattern in the source.
-/

namespace AiAudit

/-! ### Basic character helpers (JS semantics) -/

/-- The main JavaScript `\s` characters (space, tab, newline, carriage
return, form feed, vertical tab).  Exotic unicode whitespace is not used
anywhere in the repository's data. -/
def jsSpace (c : Char) : Bool :=
  c = ' ' || c = '\t' || c = '\n' || c = '\r' || c = '\x0c' || c = '\x0b'

/-- ASCII letter test, used by the broken-sentence regex `[a-zA-Z]`. -/
def asciiLetter (c : Char) : Bool :=
  ('a' ≤ c && c ≤ 'z') || ('A' ≤ c && c ≤ 'Z')

/-- ASCII decimal digit test (`\d`). -/
def asciiDigit (c : Char) : Bool :=
  '0' ≤ c && c ≤ '9'

/-- ASCII lower-casing, for case-insensitive (`/i`) regex matching. -/
def lowerC (c : Char) : Char :=
  if 'A' ≤ c && c ≤ 'Z' then Char.ofNat (c.toNat + 32) else c

/-- JS `String.prototype.trim` (both ends, whitespace). -/
def jsTrim (s : List Char) : List Char :=
  ((s.dropWhile jsSpace).reverse.dropWhile jsSpace).reverse

/-- JS `String.prototype.includes` for a fixed needle. -/
def containsSeq (needle : List Char) : List Char → Bool
  | [] => needle.isEmpty
  | c :: cs => needle.isPrefixOf (c :: cs) || containsSeq needle cs

/-- Case-insensitive literal prefix test (regex `/i` on a literal). -/
def ciPre (pat s : List Char) : Bool :=
  (s.take pat.length).map lowerC = pat.map lowerC

/-! ### The placeholder marker pattern

`findPlaceholders` and `manualPolishHTML` use the regex
`\[LLM_PLACEHOLDER:\s*([^\]]+)\]`.  Because `\s ⊆ [^\]]`, a string
matches iff it contains the literal `[LLM_PLACEHOLDER:` followed by a
non-empty run of non-`]` characters and then `]`. -/

def markerHead : List Char := "[LLM_PLACEHOLDER:".data

def markerTail : List Char := "LLM_PLACEHOLDER:".data

/-- A well-formed occurrence of the marker pattern
`\[LLM_PLACEHOLDER:[^\]]+\]` somewhere in the string. -/
def HasMarker (s : List Char) : Prop :=
  ∃ a m b, s = a ++ markerHead ++ m ++ (']' :: b) ∧ m ≠ [] ∧ ']' ∉ m

/-- Split a string at its first `]`: returns the (possibly empty) run of
non-`]` characters before it and the remainder after it. -/
def splitClose? : List Char → Option (List Char × List Char)
  | [] => none
  | c :: cs =>
    if c = ']' then some ([], cs)
    else match splitClose? cs with
      | some (m, r) => some (c :: m, r)
      | none => none

theorem splitClose?_sound :
    ∀ {s m r}, splitClose? s = some (m, r) → s = m ++ (']' :: r) ∧ ']' ∉ m := by
  intro s
  induction s with
  | nil => intro m r h; simp [splitClose?] at h
  | cons c cs ih =>
    intro m r h
    by_cases hc : c = ']'
    · subst hc
      simp [splitClose?] at h
      obtain ⟨h1, h2⟩ := h
      subst h1; subst h2
      simp
    · simp only [splitClose?, if_neg hc] at h
      cases hsc : splitClose? cs with
      | none => rw [hsc] at h; simp at h
      | some p =>
        obtain ⟨m', r'⟩ := p
        rw [hsc] at h
        simp at h
        obtain ⟨h1, h2⟩ := h
        obtain ⟨he, hni⟩ := ih hsc
        subst h1; subst h2
        constructor
        · simp [he]
        · simp [hni]
          exact fun he' => hc he'.symm

theorem splitClose?_none :
    ∀ {s}, splitClose? s = none → ']' ∉ s := by
  intro s
  induction s with
  | nil => intro _; simp
  | cons c cs ih =>
    intro h
    by_cases hc : c = ']'
    · subst hc; simp [splitClose?] at h
    · simp only [splitClose?, if_neg hc] at h
      cases hsc : splitClose? cs with
      | none =>
        simp only [List.mem_cons]
        rintro (h1 | h2)
        · exact hc h1.symm
        · exact ih hsc h2
      | some p => obtain ⟨m', r'⟩ := p; rw [hsc] at h; simp at h

theorem splitClose?_complete :
    ∀ {m r}, ']' ∉ m → splitClose? (m ++ (']' :: r)) = some (m, r) := by
  intro m
  induction m with
  | nil => intro r _; simp [splitClose?]
  | cons c cs ih =>
    intro r hni
    have hc : c ≠ ']' := by
      intro h; exact hni (by simp [h])
    have hni' : ']' ∉ cs := fun h => hni (by simp [h])
    have := @ih r hni'
    simp only [List.cons_append, splitClose?, if_neg hc]
    rw [show cs.append (']' :: r) = cs ++ (']' :: r) from rfl, this]

/-! ### Basic facts about `HasMarker` -/

theorem hasMarker_nil : ¬ HasMarker [] := by
  rintro ⟨a, m, b, he, _, _⟩
  have hlen := congrArg List.length he
  have h17 : markerHead.length = 17 := by decide
  simp [h17] at hlen
  omega

theorem hasMarker_append_left {t : List Char} (u : List Char) :
    HasMarker t → HasMarker (u ++ t) := by
  rintro ⟨a, m, b, he, hm, hni⟩
  exact ⟨u ++ a, m, b, by simp [he], hm, hni⟩

theorem hasMarker_of_suffix {t s : List Char} (h : t <:+ s) :
    HasMarker t → HasMarker s := by
  obtain ⟨u, hu⟩ := h
  intro hm
  rw [← hu]
  exact hasMarker_append_left u hm

theorem noClose_not_hasMarker {s : List Char} (h : ']' ∉ s) : ¬ HasMarker s := by
  rintro ⟨a, m, b, he, _, _⟩
  apply h
  rw [he]
  simp

theorem hasMarker_cons_elim {c : Char} {t : List Char} :
    HasMarker (c :: t) →
      (c = '[' ∧ ∃ m b, t = markerTail ++ m ++ (']' :: b) ∧ m ≠ [] ∧ ']' ∉ m) ∨
      HasMarker t := by
  rintro ⟨a, m, b, he, hm, hni⟩
  cases a with
  | nil =>
    left
    have hmh : markerHead = '[' :: markerTail := by decide
    rw [hmh] at he
    simp at he
    exact ⟨he.1, m, b, by simp [he.2], hm, hni⟩
  | cons a0 as =>
    right
    simp at he
    exact ⟨as, m, b, by simp [he.2], hm, hni⟩

/-- If a string has `markerHead` as a prefix but carries no marker, then
after the head there is either no `]` at all or an immediate `]`. -/
theorem not_hasMarker_head_cases {s₂ : List Char}
    (h : ¬ HasMarker (markerHead ++ s₂)) :
    splitClose? s₂ = none ∨ ∃ r, s₂ = ']' :: r := by
  cases hsc : splitClose? s₂ with
  | none => exact Or.inl rfl
  | some p =>
    obtain ⟨m, r⟩ := p
    obtain ⟨he, hni⟩ := splitClose?_sound hsc
    cases m with
    | nil => exact Or.inr ⟨r, by simpa using he⟩
    | cons m0 ms =>
      exact absurd ⟨[], m0 :: ms, r, by simp [he], by simp, hni⟩ h

/-! ### Generic left-to-right regex replace scanner

`scanRepl f s` mirrors a global JS `String.replace` for the patterns used
in the source: at each position the matcher `f` either fires — returning
the replacement text and the number of characters consumed beyond the
first — or the engine advances one character.  `scanCount` mirrors
`String.match(...).length` for the same matcher. -/

def scanReplF (f : List Char → Option (List Char × Nat)) : Nat → List Char → List Char
  | 0, _ => []
  | _, [] => []
  | fuel + 1, c :: cs =>
    match f (c :: cs) with
    | some (rep, k) => rep ++ scanReplF f fuel (cs.drop k)
    | none => c :: scanReplF f fuel cs

/-- `scanRepl f s` consumes at least one character per step, so
`s.length` steps of fuel always suffice (`scanReplF_fuel`). -/
def scanRepl (f : List Char → Option (List Char × Nat)) (s : List Char) : List Char :=
  scanReplF f s.length s

def scanCountF (f : List Char → Option (List Char × Nat)) : Nat → List Char → Nat
  | 0, _ => 0
  | _, [] => 0
  | fuel + 1, c :: cs =>
    match f (c :: cs) with
    | some (_, k) => 1 + scanCountF f fuel (cs.drop k)
    | none => scanCountF f fuel cs

def scanCount (f : List Char → Option (List Char × Nat)) (s : List Char) : Nat :=
  scanCountF f s.length s

theorem scanReplF_nil (f : List Char → Option (List Char × Nat)) :
    ∀ fuel, scanReplF f fuel [] = [] := by
  intro fuel; cases fuel <;> rfl

theorem scanReplF_fuel {f : List Char → Option (List Char × Nat)} :
    ∀ n m s, s.length ≤ n → s.length ≤ m → scanReplF f n s = scanReplF f m s := by
  intro n
  induction n with
  | zero =>
    intro m s hn _
    have : s = [] := List.length_eq_zero.mp (Nat.le_zero.mp hn)
    subst this
    rw [scanReplF_nil, scanReplF_nil]
  | succ n ih =>
    intro m s hn hm
    cases s with
    | nil => rw [scanReplF_nil, scanReplF_nil]
    | cons c cs =>
      cases m with
      | zero => simp at hm
      | succ m' =>
        simp only [List.length_cons] at hn hm
        show (match f (c :: cs) with
              | some (rep, k) => rep ++ scanReplF f n (cs.drop k)
              | none => c :: scanReplF f n cs) =
             (match f (c :: cs) with
              | some (rep, k) => rep ++ scanReplF f m' (cs.drop k)
              | none => c :: scanReplF f m' cs)
        cases f (c :: cs) with
        | some p =>
          obtain ⟨rep, k⟩ := p
          simp only []
          rw [ih m' (cs.drop k) (by simp only [List.length_drop]; omega)
            (by simp only [List.length_drop]; omega)]
        | none =>
          simp only []
          rw [ih m' cs (by omega) (by omega)]

theorem scanRepl_nil (f : List Char → Option (List Char × Nat)) :
    scanRepl f [] = [] := rfl

theorem scanRepl_cons_some {f : List Char → Option (List Char × Nat)}
    {c : Char} {cs rep : List Char} {k : Nat} (h : f (c :: cs) = some (rep, k)) :
    scanRepl f (c :: cs) = rep ++ scanRepl f (cs.drop k) := by
  show scanReplF f (cs.length + 1) (c :: cs) = _
  rw [show scanReplF f (cs.length + 1) (c :: cs) =
      (match f (c :: cs) with
       | some (rep, k) => rep ++ scanReplF f cs.length (cs.drop k)
       | none => c :: scanReplF f cs.length cs) from rfl]
  rw [h]
  simp only []
  rw [scanReplF_fuel cs.length (cs.drop k).length (cs.drop k)
    (by simp only [List.length_drop]; omega) le_rfl]
  rfl

theorem scanRepl_cons_none {f : List Char → Option (List Char × Nat)}
    {c : Char} {cs : List Char} (h : f (c :: cs) = none) :
    scanRepl f (c :: cs) = c :: scanRepl f cs := by
  show scanReplF f (cs.length + 1) (c :: cs) = _
  rw [show scanReplF f (cs.length + 1) (c :: cs) =
      (match f (c :: cs) with
       | some (rep, k) => rep ++ scanReplF f cs.length (cs.drop k)
       | none => c :: scanReplF f cs.length cs) from rfl]
  rw [h]
  rfl

/-- The non-empty suffixes of `markerTail`. -/
def markerTailSuffixes : List (List Char) :=
  (markerTail.tails).filter (fun q => !q.isEmpty)

/-- Conditions on a matcher under which the scanner can neither create
nor conceal a well-formed marker boundary:  replacements contain no
bracket characters, no replacement meshes with a suffix of the marker
head, and the matcher never fires on a leading `]`. -/
structure TameMatcher (f : List Char → Option (List Char × Nat)) : Prop where
  no_open : ∀ s rep k, f s = some (rep, k) → '[' ∉ rep
  no_close : ∀ s rep k, f s = some (rep, k) → ']' ∉ rep
  no_mesh : ∀ s rep k, f s = some (rep, k) →
    ∀ q ∈ markerTailSuffixes, ¬ (q <+: rep) ∧ ¬ (rep <+: q)
  no_fire_close : ∀ s, f (']' :: s) = none

theorem markerTailSuffixes_ne_nil :
    ∀ q ∈ markerTailSuffixes, q ≠ [] := by decide

theorem markerTailSuffixes_tail :
    ∀ q ∈ markerTailSuffixes, q.tail ≠ [] → q.tail ∈ markerTailSuffixes := by decide

theorem markerTail_mem_suffixes : markerTail ∈ markerTailSuffixes := by decide

/-- Pull-back: if the scanner's output starts with a (non-empty) suffix
of the marker head, so did the input, and the scanner is untouched on
that stretch. -/
theorem scanRepl_pullback {f : List Char → Option (List Char × Nat)}
    (hmesh : ∀ s rep k, f s = some (rep, k) →
      ∀ q ∈ markerTailSuffixes, ¬ (q <+: rep) ∧ ¬ (rep <+: q)) :
    ∀ s q r, q ∈ markerTailSuffixes → q ++ r = scanRepl f s →
      ∃ s₂, s = q ++ s₂ ∧ r = scanRepl f s₂ := by
  suffices H : ∀ n s, s.length ≤ n → ∀ q r, q ∈ markerTailSuffixes →
      q ++ r = scanRepl f s → ∃ s₂, s = q ++ s₂ ∧ r = scanRepl f s₂ by
    exact fun s q r hq he => H s.length s le_rfl q r hq he
  intro n
  induction n with
  | zero =>
    intro s hs q r hq he
    have : s = [] := List.length_eq_zero.mp (Nat.le_zero.mp hs)
    subst this
    rw [scanRepl_nil] at he
    exact absurd (List.append_eq_nil.mp he).1 (markerTailSuffixes_ne_nil q hq)
  | succ n ih =>
    intro s hs q r hq he
    cases s with
    | nil =>
      rw [scanRepl_nil] at he
      exact absurd (List.append_eq_nil.mp he).1 (markerTailSuffixes_ne_nil q hq)
    | cons c cs =>
      cases hf : f (c :: cs) with
      | some p =>
        obtain ⟨rep, k⟩ := p
        rw [scanRepl_cons_some hf] at he
        rcases List.append_eq_append_iff.mp he with ⟨u, hu1, _⟩ | ⟨v, hv1, _⟩
        · exact absurd ⟨u, hu1.symm⟩ ((hmesh _ _ _ hf q hq).1)
        · exact absurd ⟨v, hv1.symm⟩ ((hmesh _ _ _ hf q hq).2)
      | none =>
        rw [scanRepl_cons_none hf] at he
        cases q with
        | nil => exact absurd rfl (markerTailSuffixes_ne_nil [] hq)
        | cons q0 qs =>
          simp only [List.cons_append, List.cons.injEq] at he
          obtain ⟨hq0, he'⟩ := he
          cases hqs : qs with
          | nil =>
            refine ⟨cs, ?_, ?_⟩
            · simp [hq0, hqs]
            · rw [← he']; simp [hqs]
          | cons q1 qt =>
            have hqs' : qs ∈ markerTailSuffixes := by
              have := markerTailSuffixes_tail (q0 :: qs) hq
              simp only [List.tail_cons] at this
              exact this (by simp [hqs])
            obtain ⟨s₃, hs₃, hr⟩ :=
              ih cs (by simp only [List.length_cons] at hs; omega) qs r hqs' he'
            exact ⟨s₃, by simp [hq0, ← hqs, hs₃], hr⟩

/-- Characters absent from the input and from every replacement are
absent from the scanner's output. -/
theorem scanRepl_char_absent {f : List Char → Option (List Char × Nat)} {x : Char}
    (hrep : ∀ s rep k, f s = some (rep, k) → x ∉ rep) :
    ∀ s, x ∉ s → x ∉ scanRepl f s := by
  suffices H : ∀ n s, s.length ≤ n → x ∉ s → x ∉ scanRepl f s by
    exact fun s => H s.length s le_rfl
  intro n
  induction n with
  | zero =>
    intro s hs _
    have : s = [] := List.length_eq_zero.mp (Nat.le_zero.mp hs)
    subst this; rw [scanRepl_nil]; simp
  | succ n ih =>
    intro s hs hx
    cases s with
    | nil => rw [scanRepl_nil]; simp
    | cons c cs =>
      have hxc : x ≠ c := fun h => hx (by simp [h])
      have hxcs : x ∉ cs := fun h => hx (by simp [h])
      cases hf : f (c :: cs) with
      | some p =>
        obtain ⟨rep, k⟩ := p
        rw [scanRepl_cons_some hf]
        simp only [List.mem_append]
        rintro (h | h)
        · exact hrep _ _ _ hf h
        · have hdrop : x ∉ cs.drop k := fun hm => hxcs (List.drop_subset k cs hm)
          have hlen : (cs.drop k).length ≤ n := by
            simp only [List.length_drop]
            simp only [List.length_cons] at hs
            omega
          exact ih (cs.drop k) hlen hdrop h
      | none =>
        rw [scanRepl_cons_none hf]
        simp only [List.mem_cons]
        rintro (h | h)
        · exact hxc h
        · exact ih cs (by simp only [List.length_cons] at hs; omega) hxcs h

/-- A marker inside `d ++ t` must lie inside `t` when `d` contains no
opening bracket. -/
theorem hasMarker_append_elim {d t : List Char} (hd : '[' ∉ d) :
    HasMarker (d ++ t) → HasMarker t := by
  rintro ⟨a, m, b, he, hm, hni⟩
  rw [show a ++ markerHead ++ m ++ (']' :: b) =
        a ++ (markerHead ++ (m ++ (']' :: b))) from by simp] at he
  rcases List.append_eq_append_iff.mp he.symm with ⟨u, hu1, hu2⟩ | ⟨v, hv1, hv2⟩
  · -- d = a ++ u, markerHead ++ ... = u ++ t
    cases u with
    | nil =>
      simp at hu2
      exact ⟨[], m, b, by simp [hu2], hm, hni⟩
    | cons u0 us =>
      exfalso
      apply hd
      have : u0 = '[' := by
        have hmh : markerHead = '[' :: markerTail := by decide
        rw [hmh] at hu2
        have := congrArg List.head? hu2
        simpa using this.symm
      rw [hu1]
      simp [this]
  · -- a = d ++ v, t = v ++ markerHead ++ ...
    exact ⟨v, m, b, by simp [hv2], hm, hni⟩

/-- Main preservation theorem: a tame matcher's scan never introduces a
well-formed marker. -/
theorem scanRepl_preserves {f : List Char → Option (List Char × Nat)}
    (hf : TameMatcher f) :
    ∀ s, ¬ HasMarker s → ¬ HasMarker (scanRepl f s) := by
  suffices H : ∀ n s, s.length ≤ n → ¬ HasMarker s → ¬ HasMarker (scanRepl f s) by
    exact fun s => H s.length s le_rfl
  intro n
  induction n with
  | zero =>
    intro s hs _
    have : s = [] := List.length_eq_zero.mp (Nat.le_zero.mp hs)
    subst this; rw [scanRepl_nil]; exact hasMarker_nil
  | succ n ih =>
    intro s hs hM
    cases s with
    | nil => rw [scanRepl_nil]; exact hasMarker_nil
    | cons c cs =>
      have hMcs : ¬ HasMarker cs :=
        fun h => hM (hasMarker_of_suffix ⟨[c], rfl⟩ h)
      cases hf' : f (c :: cs) with
      | some p =>
        obtain ⟨rep, k⟩ := p
        rw [scanRepl_cons_some hf']
        intro hmk
        have h2 := hasMarker_append_elim (hf.no_open _ _ _ hf') hmk
        have hdrop : ¬ HasMarker (cs.drop k) :=
          fun h => hMcs (hasMarker_of_suffix (List.drop_suffix k cs) h)
        exact ih (cs.drop k)
          (by simp only [List.length_drop]; simp only [List.length_cons] at hs; omega)
          hdrop h2
      | none =>
        rw [scanRepl_cons_none hf']
        intro hmk
        rcases hasMarker_cons_elim hmk with ⟨hc, m, b, he, hm, hni⟩ | h2
        · obtain ⟨s₂, hcs, hrest⟩ :=
            scanRepl_pullback hf.no_mesh cs markerTail (m ++ (']' :: b))
              markerTail_mem_suffixes (by simp [he])
          have hhead : ¬ HasMarker (markerHead ++ s₂) := by
            have : (c :: cs) = markerHead ++ s₂ := by
              have hmh : markerHead = '[' :: markerTail := by decide
              simp [hmh, hc, hcs]
            rw [← this]; exact hM
          rcases not_hasMarker_head_cases hhead with hnone | ⟨r, hr⟩
          · have hcl : ']' ∉ s₂ := splitClose?_none hnone
            have : ']' ∉ scanRepl f s₂ :=
              scanRepl_char_absent hf.no_close s₂ hcl
            apply this
            rw [← hrest]
            simp
          · subst hr
            rw [scanRepl_cons_none (hf.no_fire_close r)] at hrest
            cases m with
            | nil => exact hm rfl
            | cons m0 ms =>
              apply hni
              have : m0 = ']' := by
                have h := congrArg List.head? hrest
                simp at h
                exact h
              simp [this]
        · exact ih cs (by simp only [List.length_cons] at hs; omega) hMcs h2

/-! ### The six deterministic passes of `manualPolishHTML`

Each global regex replace of the source is embedded as a matcher for
`scanRepl` / `scanCount`. -/

def insuffHead : List Char := "[INSUFFICIENT_EVIDENCE".data

def dataNotAvailable : List Char := "Data not available".data

/-- Step 1: `/\[INSUFFICIENT_EVIDENCE[^\]]*\]/g` replaced by
`"Data not available"`. -/
def insuffMatcher (s : List Char) : Option (List Char × Nat) :=
  if insuffHead.isPrefixOf s then
    match splitClose? (s.drop insuffHead.length) with
    | some (m, _) => some (dataNotAvailable, insuffHead.length + m.length)
    | none => none
  else none

/-- Step 2: `/```(?:json|html|text)?/g` removed. -/
def fenceMatcher (s : List Char) : Option (List Char × Nat) :=
  if "```".data.isPrefixOf s then
    let t := s.drop 3
    let tagLen : Nat :=
      if "json".data.isPrefixOf t then 4
      else if "html".data.isPrefixOf t then 4
      else if "text".data.isPrefixOf t then 4
      else 0
    some ([], 2 + tagLen)
  else none

/-- The `\s*([^\]]+)` capture group of the placeholder regex: greedy
whitespace, then at least one character. -/
def captureOf (m : List Char) : List Char :=
  let t := m.dropWhile jsSpace
  if t.isEmpty then [m.getLastD ' '] else t

/-- The per-field default sentences of step 3, keyed by substring checks
on the captured field name, in source order. -/
def phDefaultOf (f : List Char) : List Char :=
  if containsSeq "finding_summary".data f then "Issue identified requiring attention.".data
  else if containsSeq "finding_risk".data f then "Risk: Potential impact on operations if not addressed.".data
  else if containsSeq "fix_problem".data f then "Process inefficiency identified.".data
  else if containsSeq "fix_solution".data f then "Implement automation to streamline workflow.".data
  else if containsSeq "impact_basis".data f then "This fix will reduce manual effort and improve efficiency.".data
  else if containsSeq "cta_headline".data f then "Ready to fix your workflow?".data
  else if containsSeq "cta_subtext".data f then "Schedule a call to discuss implementation.".data
  else if containsSeq "executive_summary".data f then "Analysis reveals opportunities for process improvement.".data
  else if containsSeq "scope_statement".data f then "This audit assessed the workflow processes.".data
  else if containsSeq "math_defender".data f then "Calculations based on provided metrics.".data
  else "See analysis details.".data

def phDefault (m : List Char) : List Char := phDefaultOf (captureOf m)

/-- Step 3: `/\[LLM_PLACEHOLDER:\s*([^\]]+)\]/g` replaced by a default
sentence chosen from the field name. -/
def phMatcher (s : List Char) : Option (List Char × Nat) :=
  if markerHead.isPrefixOf s then
    match splitClose? (s.drop markerHead.length) with
    | some (m, _) =>
      if m.isEmpty then none else some (phDefault m, markerHead.length + m.length)
    | none => none
  else none

/-- A case-insensitive literal replace (`/pat/gi`). -/
def ciLitMatcher (pat rep : List Char) (s : List Char) : Option (List Char × Nat) :=
  if pat.isEmpty then none
  else if ciPre pat s then some (rep, pat.length - 1) else none

/-- Step 4's template-variable literals, in source order. -/
def tvPairs : List (List Char × List Char) :=
  [ ("[specific data point]".data, "key metrics".data)
  , ("[start date]".data, "the analysis start date".data)
  , ("[end date]".data, "the analysis end date".data)
  , ("[missing period/segment]".data, "certain time periods".data)
  , ("[specific data category]".data, "certain categories".data)
  , ("[level of detail]".data, "detailed".data)
  , ("[specific area of impact]".data, "specific areas".data) ]

/-- Step 4's detection regex
`/\[(?:specific|start|end|missing|level)[^\]]*\]/gi` (note: broader than
the literals actually replaced). -/
def tvWords : List (List Char) :=
  ["specific".data, "start".data, "end".data, "missing".data, "level".data]

def tvDetectMatcher (s : List Char) : Option (List Char × Nat) :=
  match s with
  | '[' :: rest =>
    match tvWords.find? (fun w => ciPre w rest) with
    | some w =>
      match splitClose? (rest.drop w.length) with
      | some (m, _) => some ([], w.length + m.length + 1)
      | none => none
    | none => none
  | _ => none

/-- Step 6: `/  +/g` collapsed to a single space. -/
def spaceMatcher (s : List Char) : Option (List Char × Nat) :=
  match s with
  | ' ' :: ' ' :: rest => some ([' '], 1 + (rest.takeWhile (fun c => c = ' ')).length)
  | _ => none

/-! ### Tameness of the step 1, 4 and 6 matchers -/

theorem isPrefixOf_head_neq {a b : Char} {as bs : List Char} (h : a ≠ b) :
    (a :: as).isPrefixOf (b :: bs) = false := by
  simp [List.isPrefixOf, h]

theorem ciPre_head_neq {p0 c : Char} {ps s : List Char} (h : lowerC p0 ≠ lowerC c) :
    ciPre (p0 :: ps) (c :: s) = false := by
  simp only [ciPre, List.length_cons, List.take_succ_cons, List.map_cons]
  simp only [decide_eq_false_iff_not]
  intro he
  have hh := congrArg List.head? he
  simp at hh
  exact h hh.symm

/-- The eleven default sentences of step 3. -/
def phDefaults : List (List Char) :=
  [ "Issue identified requiring attention.".data
  , "Risk: Potential impact on operations if not addressed.".data
  , "Process inefficiency identified.".data
  , "Implement automation to streamline workflow.".data
  , "This fix will reduce manual effort and improve efficiency.".data
  , "Ready to fix your workflow?".data
  , "Schedule a call to discuss implementation.".data
  , "Analysis reveals opportunities for process improvement.".data
  , "This audit assessed the workflow processes.".data
  , "Calculations based on provided metrics.".data
  , "See analysis details.".data ]

set_option maxHeartbeats 2000000 in
theorem phDefault_mem (m : List Char) : phDefault m ∈ phDefaults := by
  unfold phDefault phDefaultOf
  split_ifs <;>
    first
      | exact .head _
      | exact .tail _ (.head _)
      | exact .tail _ (.tail _ (.head _))
      | exact .tail _ (.tail _ (.tail _ (.head _)))
      | exact .tail _ (.tail _ (.tail _ (.tail _ (.head _))))
      | exact .tail _ (.tail _ (.tail _ (.tail _ (.tail _ (.head _)))))
      | exact .tail _ (.tail _ (.tail _ (.tail _ (.tail _ (.tail _ (.head _))))))
      | exact .tail _ (.tail _ (.tail _ (.tail _ (.tail _ (.tail _ (.tail _ (.head _)))))))
      | exact .tail _ (.tail _ (.tail _ (.tail _ (.tail _ (.tail _ (.tail _ (.tail _ (.head _))))))))
      | exact .tail _ (.tail _ (.tail _ (.tail _ (.tail _ (.tail _ (.tail _ (.tail _ (.tail _ (.head _)))))))))
      | exact .tail _ (.tail _ (.tail _ (.tail _ (.tail _ (.tail _ (.tail _ (.tail _ (.tail _ (.tail _ (.head _))))))))))

theorem phDefaults_no_open : ∀ d ∈ phDefaults, '[' ∉ d := by decide

theorem phDefaults_no_close : ∀ d ∈ phDefaults, ']' ∉ d := by decide

theorem phDefaults_no_mesh :
    ∀ d ∈ phDefaults, ∀ q ∈ markerTailSuffixes, ¬ (q <+: d) ∧ ¬ (d <+: q) := by decide

theorem tame_insuff : TameMatcher insuffMatcher := by
  constructor
  · intro s rep k h
    unfold insuffMatcher at h
    split_ifs at h
    · cases hsc : splitClose? (s.drop insuffHead.length) with
      | some p => rw [hsc] at h; obtain ⟨m, r⟩ := p; simp at h
                  rw [← h.1]; decide
      | none => rw [hsc] at h; simp at h
  · intro s rep k h
    unfold insuffMatcher at h
    split_ifs at h
    · cases hsc : splitClose? (s.drop insuffHead.length) with
      | some p => rw [hsc] at h; obtain ⟨m, r⟩ := p; simp at h
                  rw [← h.1]; decide
      | none => rw [hsc] at h; simp at h
  · intro s rep k h
    unfold insuffMatcher at h
    split_ifs at h
    · cases hsc : splitClose? (s.drop insuffHead.length) with
      | some p => rw [hsc] at h; obtain ⟨m, r⟩ := p; simp at h
                  rw [← h.1]; decide
      | none => rw [hsc] at h; simp at h
  · intro s
    unfold insuffMatcher
    rw [show insuffHead = '[' :: "INSUFFICIENT_EVIDENCE".data from by decide]
    rw [isPrefixOf_head_neq (by decide)]
    simp

theorem tame_space : TameMatcher spaceMatcher := by
  constructor
  · intro s rep k h
    unfold spaceMatcher at h
    split at h
    · simp at h; rw [← h.1]; decide
    · simp at h
  · intro s rep k h
    unfold spaceMatcher at h
    split at h
    · simp at h; rw [← h.1]; decide
    · simp at h
  · intro s rep k h
    unfold spaceMatcher at h
    split at h
    · simp at h; rw [← h.1]; decide
    · simp at h
  · intro s
    unfold spaceMatcher
    rfl

theorem ciPre_close_false {pat : List Char} {p0 : Char}
    (h : pat.head? = some p0) (h2 : lowerC p0 ≠ lowerC ']') :
    ∀ s, ciPre pat (']' :: s) = false := by
  cases pat with
  | nil => simp at h
  | cons q qs =>
    have : q = p0 := by simpa using h
    subst this
    exact fun s => ciPre_head_neq h2

theorem tame_ciLit {pat rep : List Char} {p0 : Char}
    (hh : pat.head? = some p0) (hp0 : lowerC p0 ≠ lowerC ']')
    (ho : '[' ∉ rep) (hc : ']' ∉ rep)
    (hm : ∀ q ∈ markerTailSuffixes, ¬ (q <+: rep) ∧ ¬ (rep <+: q)) :
    TameMatcher (ciLitMatcher pat rep) := by
  have hrep : ∀ s rep' k, ciLitMatcher pat rep s = some (rep', k) → rep' = rep := by
    intro s rep' k h
    unfold ciLitMatcher at h
    split_ifs at h
    simp at h
    exact h.1.symm
  constructor
  · intro s rep' k h; rw [hrep s rep' k h]; exact ho
  · intro s rep' k h; rw [hrep s rep' k h]; exact hc
  · intro s rep' k h; rw [hrep s rep' k h]; exact hm
  · intro s
    unfold ciLitMatcher
    rw [ciPre_close_false hh hp0 s]
    split_ifs <;> first | rfl | simp_all

theorem tvPairs_tame : ∀ p ∈ tvPairs, TameMatcher (ciLitMatcher p.1 p.2) := by
  intro p hp
  fin_cases hp <;>
    exact @tame_ciLit _ _ '[' (by decide) (by decide) (by decide) (by decide) (by decide)

/-! ### Step 3 removes every well-formed marker -/

theorem ph_no_open : ∀ s rep k, phMatcher s = some (rep, k) → '[' ∉ rep := by
  intro s rep k h
  unfold phMatcher at h
  split_ifs at h
  cases hsc : splitClose? (s.drop markerHead.length) with
  | some p =>
    obtain ⟨m, r⟩ := p
    rw [hsc] at h
    by_cases hm : m.isEmpty <;> simp [hm] at h
    rw [← h.1]
    exact phDefaults_no_open _ (phDefault_mem m)
  | none => rw [hsc] at h; simp at h

theorem ph_no_close : ∀ s rep k, phMatcher s = some (rep, k) → ']' ∉ rep := by
  intro s rep k h
  unfold phMatcher at h
  split_ifs at h
  cases hsc : splitClose? (s.drop markerHead.length) with
  | some p =>
    obtain ⟨m, r⟩ := p
    rw [hsc] at h
    by_cases hm : m.isEmpty <;> simp [hm] at h
    rw [← h.1]
    exact phDefaults_no_close _ (phDefault_mem m)
  | none => rw [hsc] at h; simp at h

theorem ph_no_mesh : ∀ s rep k, phMatcher s = some (rep, k) →
    ∀ q ∈ markerTailSuffixes, ¬ (q <+: rep) ∧ ¬ (rep <+: q) := by
  intro s rep k h
  unfold phMatcher at h
  split_ifs at h
  cases hsc : splitClose? (s.drop markerHead.length) with
  | some p =>
    obtain ⟨m, r⟩ := p
    rw [hsc] at h
    by_cases hm : m.isEmpty <;> simp [hm] at h
    rw [← h.1]
    exact phDefaults_no_mesh _ (phDefault_mem m)
  | none => rw [hsc] at h; simp at h

theorem ph_no_fire_close : ∀ s, phMatcher (']' :: s) = none := by
  intro s
  unfold phMatcher
  rw [show markerHead = '[' :: markerTail from by decide]
  rw [isPrefixOf_head_neq (by decide)]
  simp

/-- After the step 3 scan, no well-formed placeholder marker remains —
for every input. -/
theorem scanRepl_ph_no_marker : ∀ s, ¬ HasMarker (scanRepl phMatcher s) := by
  suffices H : ∀ n s, s.length ≤ n → ¬ HasMarker (scanRepl phMatcher s) by
    exact fun s => H s.length s le_rfl
  intro n
  induction n with
  | zero =>
    intro s hs
    have : s = [] := List.length_eq_zero.mp (Nat.le_zero.mp hs)
    subst this; rw [scanRepl_nil]; exact hasMarker_nil
  | succ n ih =>
    intro s hs
    cases s with
    | nil => rw [scanRepl_nil]; exact hasMarker_nil
    | cons c cs =>
      cases hf' : phMatcher (c :: cs) with
      | some p =>
        obtain ⟨rep, k⟩ := p
        rw [scanRepl_cons_some hf']
        intro hmk
        have h2 := hasMarker_append_elim (ph_no_open _ _ _ hf') hmk
        exact ih (cs.drop k)
          (by simp only [List.length_drop]; simp only [List.length_cons] at hs; omega)
          h2
      | none =>
        rw [scanRepl_cons_none hf']
        intro hmk
        rcases hasMarker_cons_elim hmk with ⟨hc, m, b, he, hm, hni⟩ | h2
        · obtain ⟨s₂, hcs, hrest⟩ :=
            scanRepl_pullback ph_no_mesh cs markerTail (m ++ (']' :: b))
              markerTail_mem_suffixes (by simp [he])
          -- the input position looked like `markerHead ++ s₂` but the
          -- matcher did not fire, so `s₂` has no close or an immediate one
          have hpre : markerHead.isPrefixOf (markerHead ++ s₂) = true := by
            rw [List.isPrefixOf_iff_prefix]
            exact ⟨s₂, rfl⟩
          have hcc : (c :: cs) = markerHead ++ s₂ := by
            have hmh : markerHead = '[' :: markerTail := by decide
            simp [hmh, hc, hcs]
          rw [hcc] at hf'
          unfold phMatcher at hf'
          rw [hpre] at hf'
          simp only [if_true] at hf'
          rw [List.drop_left] at hf'
          cases hsc : splitClose? s₂ with
          | none =>
            have hcl : ']' ∉ s₂ := splitClose?_none hsc
            have : ']' ∉ scanRepl phMatcher s₂ :=
              scanRepl_char_absent ph_no_close s₂ hcl
            apply this
            rw [← hrest]
            simp
          | some p =>
            obtain ⟨m', r'⟩ := p
            rw [hsc] at hf'
            by_cases hme : m'.isEmpty
            · have hm'nil : m' = [] := by simpa [List.isEmpty_iff] using hme
              subst hm'nil
              obtain ⟨hs₂, _⟩ := splitClose?_sound hsc
              simp at hs₂
              rw [hs₂] at hrest
              rw [scanRepl_cons_none (ph_no_fire_close r')] at hrest
              cases m with
              | nil => exact hm rfl
              | cons m0 ms =>
                apply hni
                have : m0 = ']' := by
                  have h := congrArg List.head? hrest
                  simp at h
                  exact h
                simp [this]
            · simp [hme] at hf'
        · exact ih cs (by simp only [List.length_cons] at hs; omega) h2

/-! ### Step 5: the broken-sentence `exec` loop

The source iterates `brokenSentencePattern.exec` over the evolving
string, and repairs a match by `String.replace` of the *first* occurrence
of the matched text, advancing the regex `lastIndex` as the JS engine
does. -/

def notAngle (c : Char) : Bool := !(c == '<') && !(c == '>')

/-- The closing-tag alternation `(?:p|div|span|td)`, in source order. -/
def tagOf? (t : List Char) : Option (List Char) :=
  if ['p'].isPrefixOf t then some ['p']
  else if "div".data.isPrefixOf t then some "div".data
  else if "span".data.isPrefixOf t then some "span".data
  else if "td".data.isPrefixOf t then some "td".data
  else none

/-- Match of `>([^<>]+[a-zA-Z])<\/(?:p|div|span|td)` anchored at the head
of the string; returns the captured text and the tag. -/
def matchBrokenAt : List Char → Option (List Char × List Char)
  | '>' :: rest =>
    let run := rest.takeWhile notAngle
    if 2 ≤ run.length && asciiLetter (run.getLastD ' ') then
      match rest.drop run.length with
      | '<' :: '/' :: t =>
        match tagOf? t with
        | some tag => some (run, tag)
        | none => none
      | _ => none
    else none
  | _ => none

/-- The full matched text `match[0]`. -/
def bro0 (run tag : List Char) : List Char := '>' :: (run ++ '<' :: '/' :: tag)

/-- The replacement `` `>${text}.</` + match[0].split('</')[1] ``. -/
def broDot (run tag : List Char) : List Char := '>' :: (run ++ '.' :: '<' :: '/' :: tag)

/-- `regex.exec` from a given index: leftmost match at position ≥ the
start. -/
def findBroken : List Char → Nat → Option (Nat × List Char × List Char)
  | [], _ => none
  | c :: cs, j =>
    match matchBrokenAt (c :: cs) with
    | some (run, tag) => some (j, run, tag)
    | none => findBroken cs (j + 1)

/-- JS `String.replace` with a plain-string pattern: first occurrence
only. -/
def replaceFirst (pat rep : List Char) : List Char → List Char
  | [] => []
  | c :: cs =>
    if pat.isPrefixOf (c :: cs) then rep ++ (c :: cs).drop pat.length
    else c :: replaceFirst pat rep cs

/-- The (always-false, see the capture's trailing `[a-zA-Z]`) check
`text.match(/[.!?:,]$/)`. -/
def endsPunct (run : List Char) : Bool :=
  match run.getLast? with
  | some c => c = '.' || c = '!' || c = '?' || c = ':' || c = ','
  | none => false

theorem findBroken_ge :
    ∀ {t : List Char} {j i : Nat} {run tag : List Char},
      findBroken t j = some (i, run, tag) → j ≤ i := by
  intro t
  induction t with
  | nil => intro j i run tag h; simp [findBroken] at h
  | cons c cs ih =>
    intro j i run tag h
    unfold findBroken at h
    cases hm : matchBrokenAt (c :: cs) with
    | some p => rw [hm] at h; simp at h; omega
    | none =>
      rw [hm] at h
      have := ih h
      omega

theorem findBroken_match :
    ∀ {t : List Char} {j i : Nat} {run tag : List Char},
      findBroken t j = some (i, run, tag) →
      matchBrokenAt (t.drop (i - j)) = some (run, tag) := by
  intro t
  induction t with
  | nil => intro j i run tag h; simp [findBroken] at h
  | cons c cs ih =>
    intro j i run tag h
    unfold findBroken at h
    cases hm : matchBrokenAt (c :: cs) with
    | some p =>
      rw [hm] at h
      obtain ⟨run', tag'⟩ := p
      simp at h
      obtain ⟨h1, h2, h3⟩ := h
      subst h1; subst h2; subst h3
      simpa using hm
    | none =>
      rw [hm] at h
      have hge := findBroken_ge h
      have := ih h
      have hd : (c :: cs).drop (i - j) = cs.drop (i - (j + 1)) := by
        have : i - j = (i - (j + 1)) + 1 := by omega
        rw [this]
        rfl
      rw [hd]
      exact this

theorem drop_takeWhile_length (p : Char → Bool) (l : List Char) :
    l.drop (l.takeWhile p).length = l.dropWhile p := by
  induction l with
  | nil => rfl
  | cons c cs ih =>
    by_cases hc : p c
    · simp [List.takeWhile_cons, List.dropWhile_cons, hc, ih]
    · simp [List.takeWhile_cons, List.dropWhile_cons, hc]

theorem tagOf?_shape {t tag : List Char} (h : tagOf? t = some tag) :
    (∃ v, t = tag ++ v) ∧ 1 ≤ tag.length := by
  unfold tagOf? at h
  split_ifs at h with h1 h2 h3 h4 <;> simp at h <;> rw [← h]
  · obtain ⟨v, hv⟩ := List.isPrefixOf_iff_prefix.mp h1
    exact ⟨⟨v, hv.symm⟩, by decide⟩
  · obtain ⟨v, hv⟩ := List.isPrefixOf_iff_prefix.mp h2
    exact ⟨⟨v, hv.symm⟩, by decide⟩
  · obtain ⟨v, hv⟩ := List.isPrefixOf_iff_prefix.mp h3
    exact ⟨⟨v, hv.symm⟩, by decide⟩
  · obtain ⟨v, hv⟩ := List.isPrefixOf_iff_prefix.mp h4
    exact ⟨⟨v, hv.symm⟩, by decide⟩

theorem matchBrokenAt_shape {u run tag : List Char}
    (h : matchBrokenAt u = some (run, tag)) :
    (∃ v, u = bro0 run tag ++ v) ∧ 2 ≤ run.length ∧
      asciiLetter (run.getLastD ' ') = true ∧ 1 ≤ tag.length := by
  unfold matchBrokenAt at h
  cases u with
  | nil => simp at h
  | cons u0 rest =>
    by_cases hu0 : u0 = '>'
    · subst hu0
      simp only at h
      split_ifs at h with hcond
      · cases hdrop : rest.drop (rest.takeWhile notAngle).length with
        | nil => rw [hdrop] at h; simp at h
        | cons d0 ds =>
          rw [hdrop] at h
          cases ds with
          | nil =>
            by_cases hd0 : d0 = '<' <;> simp [hd0] at h
          | cons d1 ds' =>
            by_cases hd0 : d0 = '<'
            · by_cases hd1 : d1 = '/'
              · subst hd0; subst hd1
                simp only at h
                cases htag : tagOf? ds' with
                | none => rw [htag] at h; simp at h
                | some tg =>
                  rw [htag] at h
                  simp at h
                  obtain ⟨hrun, htg⟩ := h
                  subst hrun; subst htg
                  obtain ⟨⟨v, hv⟩, htl⟩ := tagOf?_shape htag
                  simp at hcond
                  have hdw : rest.dropWhile notAngle = '<' :: '/' :: ds' := by
                    rw [← drop_takeWhile_length notAngle rest]
                    exact hdrop
                  have hsplit : rest = rest.takeWhile notAngle ++ ('<' :: '/' :: ds') := by
                    conv_lhs =>
                      rw [← List.takeWhile_append_dropWhile notAngle rest]
                    rw [hdw]
                  refine ⟨⟨v, ?_⟩, hcond.1, ?_, htl⟩
                  · conv_lhs => rw [hsplit, hv]
                    simp [bro0]
                  · rw [List.getLastD_eq_getLast?]
                    exact hcond.2
              · simp [hd0, hd1] at h
            · simp [hd0] at h
    · simp [hu0] at h

theorem replaceFirst_length_le {pat rep : List Char} (h : pat.length ≤ rep.length) :
    ∀ s, (replaceFirst pat rep s).length ≤ s.length + (rep.length - pat.length) := by
  intro s
  induction s with
  | nil => simp [replaceFirst]
  | cons c cs ih =>
    unfold replaceFirst
    split_ifs with hp
    · have hle : pat.length ≤ (c :: cs).length :=
        (List.isPrefixOf_iff_prefix.mp hp).length_le
      simp only [List.length_append, List.length_drop]
      simp only [List.length_cons] at hle ⊢
      omega
    · simp only [List.length_cons]
      omega

theorem replaceFirst_cases (pat rep : List Char) :
    ∀ s, replaceFirst pat rep s = s ∨
      ∃ a b, s = a ++ pat ++ b ∧ replaceFirst pat rep s = a ++ rep ++ b := by
  intro s
  induction s with
  | nil => left; rfl
  | cons c cs ih =>
    unfold replaceFirst
    split_ifs with hp
    · right
      obtain ⟨t, ht⟩ := List.isPrefixOf_iff_prefix.mp hp
      refine ⟨[], t, by simp [← ht], ?_⟩
      rw [← ht, List.drop_left]
      simp
    · rcases ih with h | ⟨a, b, h1, h2⟩
      · left; rw [h]
      · right
        exact ⟨c :: a, b, by simp [h1], by simp [h2]⟩

/-- The marker-head literal contains no dot. -/
theorem markerHead_no_dot : '.' ∉ markerHead := by decide

/-- Inserting a `.` directly after a character other than `:` cannot
create a marker occurrence. -/
theorem insert_dot_no_marker {x y : List Char} {l : Char}
    (hx : x.getLast? = some l) (hl : l ≠ ':')
    (h : ¬ HasMarker (x ++ y)) : ¬ HasMarker (x ++ '.' :: y) := by
  intro hM
  apply h
  obtain ⟨A, m, B, he, hm, hni⟩ := hM
  rw [show A ++ markerHead ++ m ++ (']' :: B) =
        A ++ (markerHead ++ (m ++ (']' :: B))) from by simp] at he
  have hxlast : ∀ v : List Char, x = v ++ markerHead → False := by
    intro v hv
    rw [hv] at hx
    rw [List.getLast?_append] at hx
    have : markerHead.getLast? = some ':' := by decide
    rw [this] at hx
    simp at hx
    exact hl hx.symm
  rcases List.append_eq_append_iff.mp he with ⟨u, hA, hdots⟩ | ⟨v, hx2, hR⟩
  · -- the marker starts inside `y`
    cases u with
    | nil =>
      exfalso
      have := congrArg List.head? hdots
      rw [show markerHead ++ (m ++ (']' :: B)) = '[' :: (markerTail ++ (m ++ (']' :: B)))
        from by rw [show markerHead = '[' :: markerTail from by decide]; simp] at this
      simp at this
    | cons u0 us =>
      simp only [List.cons_append, List.cons.injEq] at hdots
      obtain ⟨_, hy⟩ := hdots
      exact ⟨x ++ us, m, B, by simp [hy], hm, hni⟩
  · -- `x = A ++ v`, and `v ++ '.' :: y` is the marker's material
    rcases List.append_eq_append_iff.mp hR with ⟨w, hv, h2⟩ | ⟨w, hmh, h2⟩
    · -- v = markerHead ++ w and m ++ ']'::B = w ++ '.'::y
      rcases List.append_eq_append_iff.mp h2 with ⟨z, hw, h3⟩ | ⟨z, hm2, h3⟩
      · -- w = m ++ z and ']'::B = z ++ '.'::y
        cases z with
        | nil =>
          exfalso
          simp only [List.nil_append] at h3
          have := congrArg List.head? h3
          simp at this
        | cons z0 zs =>
          simp only [List.cons_append, List.cons.injEq] at h3
          obtain ⟨hz0, hB⟩ := h3
          refine ⟨A, m, zs ++ y, ?_, hm, hni⟩
          rw [hx2, hv, hw, hz0.symm]
          simp
      · -- m = w ++ z and '.'::y = z ++ ']'::B
        cases z with
        | nil =>
          exfalso
          simp only [List.nil_append] at h3
          have := congrArg List.head? h3
          simp at this
        | cons z0 zs =>
          simp only [List.cons_append, List.cons.injEq] at h3
          obtain ⟨hz0, hy⟩ := h3
          by_cases hwz : w = [] ∧ zs = []
          · exfalso
            obtain ⟨hw0, _⟩ := hwz
            apply hxlast A
            rw [hx2, hv, hw0]
            simp
          · refine ⟨A, w ++ zs, B, ?_, ?_, ?_⟩
            · rw [hx2, hv, hy]
              simp
            · intro hcon
              rcases List.append_eq_nil.mp hcon with ⟨h1', h2'⟩
              exact hwz ⟨h1', h2'⟩
            · intro hcl
              rcases List.mem_append.mp hcl with hin | hin
              · exact hni (by rw [hm2]; exact List.mem_append.mpr (Or.inl hin))
              · apply hni
                rw [hm2, hz0.symm]
                exact List.mem_append.mpr (Or.inr (by simp [hin]))
    · -- markerHead = v ++ w and '.'::y = w ++ (m ++ ']'::B)
      cases w with
      | nil =>
        exfalso
        apply hxlast A
        rw [hx2]
        rw [show v = markerHead from (by simpa using hmh : markerHead = v).symm]
      | cons w0 ws =>
        exfalso
        apply markerHead_no_dot
        have hw0 : w0 = '.' := by
          simp only [List.cons_append] at h2
          have := congrArg List.head? h2
          simp at this
          exact this.symm
        rw [hmh, hw0]
        simp

theorem bro0_length (run tag : List Char) :
    (bro0 run tag).length = run.length + tag.length + 3 := by
  simp [bro0]
  omega

theorem broDot_length (run tag : List Char) :
    (broDot run tag).length = run.length + tag.length + 4 := by
  simp [broDot]
  omega

theorem findBroken_facts {s : List Char} {li i : Nat} {run tag : List Char}
    (h : findBroken (s.drop li) li = some (i, run, tag)) :
    li ≤ i ∧ i + (bro0 run tag).length ≤ s.length ∧ 2 ≤ run.length ∧
      asciiLetter (run.getLastD ' ') = true ∧ 1 ≤ tag.length := by
  have hge := findBroken_ge h
  have hmt := findBroken_match h
  rw [List.drop_drop] at hmt
  have hidx : li + (i - li) = i := by omega
  rw [hidx] at hmt
  obtain ⟨⟨v, hv⟩, h2, hlet, htl⟩ := matchBrokenAt_shape hmt
  have hlen := congrArg List.length hv
  simp only [List.length_drop, List.length_append] at hlen
  have hli : li < s.length := by
    apply List.length_lt_of_drop_ne_nil
    intro hnil
    rw [hnil] at h
    simp [findBroken] at h
  refine ⟨hge, ?_, h2, hlet, htl⟩
  have hb := bro0_length run tag
  omega

/-- One repair step of the loop preserves marker-freedom: the inserted
dot sits immediately after a letter. -/
theorem replaceFirst_bro_no_marker {run tag s : List Char}
    (h2 : 2 ≤ run.length) (hlet : asciiLetter (run.getLastD ' ') = true)
    (hM : ¬ HasMarker s) :
    ¬ HasMarker (replaceFirst (bro0 run tag) (broDot run tag) s) := by
  rcases replaceFirst_cases (bro0 run tag) (broDot run tag) s with he | ⟨a, b, hs, he⟩
  · rw [he]; exact hM
  · rw [he]
    have hrun : run ≠ [] := by
      intro hn; rw [hn] at h2; simp at h2
    cases hlast : run.getLast? with
    | none => exact absurd (List.getLast?_eq_none_iff.mp hlast) hrun
    | some c =>
      have hcl : asciiLetter c = true := by
        rw [List.getLastD_eq_getLast?, hlast] at hlet
        simpa using hlet
      have hcne : c ≠ ':' := by
        intro hcc; rw [hcc] at hcl; exact absurd hcl (by decide)
      have hrw : a ++ broDot run tag ++ b =
          (a ++ '>' :: run) ++ '.' :: ('<' :: '/' :: tag ++ b) := by
        simp [broDot]
      have hrw0 : a ++ bro0 run tag ++ b =
          (a ++ '>' :: run) ++ ('<' :: '/' :: tag ++ b) := by
        simp [bro0]
      rw [hrw]
      apply @insert_dot_no_marker _ _ c ?_ hcne
      · rw [← hrw0, ← hs]
        exact hM
      · rw [List.getLast?_append]
        have : ('>' :: run).getLast? = some c := by
          rw [List.getLast?_cons, hlast]
          cases run <;> simp_all
        rw [this]
        rfl

/-- The `while (exec)` repair loop of step 5, with explicit fuel: the
regex keeps its `lastIndex` against the mutating string, and each
accepted match patches the first occurrence of its text.  The loop's
measure `s.length + 1 - lastIndex` shrinks by at least four per
iteration (`findBroken_facts`), so that much fuel always suffices. -/
def punctLoopF : Nat → List Char → Nat → Nat → List Char × Nat
  | 0, s, _, cnt => (s, cnt)
  | fuel + 1, s, li, cnt =>
    match findBroken (s.drop li) li with
    | none => (s, cnt)
    | some (i, run, tag) =>
      if 20 < run.length && !(endsPunct run) then
        punctLoopF fuel (replaceFirst (bro0 run tag) (broDot run tag) s)
          (i + (bro0 run tag).length) (cnt + 1)
      else
        punctLoopF fuel s (i + (bro0 run tag).length) cnt

def punctLoop (s : List Char) (li cnt : Nat) : List Char × Nat :=
  punctLoopF (s.length + 1 - li) s li cnt

theorem punctLoopF_no_marker :
    ∀ fuel s li cnt, ¬ HasMarker s → ¬ HasMarker (punctLoopF fuel s li cnt).1 := by
  intro fuel
  induction fuel with
  | zero => intro s li cnt hM; exact hM
  | succ fuel ih =>
    intro s li cnt hM
    show ¬ HasMarker
      (match findBroken (s.drop li) li with
       | none => (s, cnt)
       | some (i, run, tag) =>
         if 20 < run.length && !(endsPunct run) then
           punctLoopF fuel (replaceFirst (bro0 run tag) (broDot run tag) s)
             (i + (bro0 run tag).length) (cnt + 1)
         else
           punctLoopF fuel s (i + (bro0 run tag).length) cnt).1
    cases h : findBroken (s.drop li) li with
    | none => exact hM
    | some p =>
      obtain ⟨i, run, tag⟩ := p
      obtain ⟨hge, hlen, h2, hlet, htl⟩ := findBroken_facts h
      simp only []
      split_ifs with hcond
      · exact ih _ _ _ (replaceFirst_bro_no_marker h2 hlet hM)
      · exact ih _ _ _ hM

theorem punctLoop_no_marker :
    ∀ s li cnt, ¬ HasMarker s → ¬ HasMarker (punctLoop s li cnt).1 :=
  fun s li cnt hM => punctLoopF_no_marker _ s li cnt hM

theorem scanCountF_nil (f : List Char → Option (List Char × Nat)) :
    ∀ fuel, scanCountF f fuel [] = 0 := by
  intro fuel; cases fuel <;> rfl

theorem scanCountF_fuel {f : List Char → Option (List Char × Nat)} :
    ∀ n m s, s.length ≤ n → s.length ≤ m → scanCountF f n s = scanCountF f m s := by
  intro n
  induction n with
  | zero =>
    intro m s hn _
    have : s = [] := List.length_eq_zero.mp (Nat.le_zero.mp hn)
    subst this
    rw [scanCountF_nil, scanCountF_nil]
  | succ n ih =>
    intro m s hn hm
    cases s with
    | nil => rw [scanCountF_nil, scanCountF_nil]
    | cons c cs =>
      cases m with
      | zero => simp at hm
      | succ m' =>
        simp only [List.length_cons] at hn hm
        show (match f (c :: cs) with
              | some (_, k) => 1 + scanCountF f n (cs.drop k)
              | none => scanCountF f n cs) =
             (match f (c :: cs) with
              | some (_, k) => 1 + scanCountF f m' (cs.drop k)
              | none => scanCountF f m' cs)
        cases f (c :: cs) with
        | some p =>
          obtain ⟨rep, k⟩ := p
          simp only []
          rw [ih m' (cs.drop k) (by simp only [List.length_drop]; omega)
            (by simp only [List.length_drop]; omega)]
        | none =>
          simp only []
          rw [ih m' cs (by omega) (by omega)]

theorem scanCount_cons_some {f : List Char → Option (List Char × Nat)}
    {c : Char} {cs rep : List Char} {k : Nat} (h : f (c :: cs) = some (rep, k)) :
    scanCount f (c :: cs) = 1 + scanCount f (cs.drop k) := by
  show scanCountF f (cs.length + 1) (c :: cs) = _
  rw [show scanCountF f (cs.length + 1) (c :: cs) =
      (match f (c :: cs) with
       | some (_, k) => 1 + scanCountF f cs.length (cs.drop k)
       | none => scanCountF f cs.length cs) from rfl]
  rw [h]
  simp only []
  rw [scanCountF_fuel cs.length (cs.drop k).length (cs.drop k)
    (by simp only [List.length_drop]; omega) le_rfl]
  rfl

theorem scanCount_cons_none {f : List Char → Option (List Char × Nat)}
    {c : Char} {cs : List Char} (h : f (c :: cs) = none) :
    scanCount f (c :: cs) = scanCount f cs := by
  show scanCountF f (cs.length + 1) (c :: cs) = _
  rw [show scanCountF f (cs.length + 1) (c :: cs) =
      (match f (c :: cs) with
       | some (_, k) => 1 + scanCountF f cs.length (cs.drop k)
       | none => scanCountF f cs.length cs) from rfl]
  rw [h]
  exact scanCountF_fuel cs.length cs.length cs le_rfl le_rfl

/-- Wherever a well-formed marker occurs, the step 3 detection count is
positive. -/
theorem scanCount_ph_pos : ∀ s, HasMarker s → 0 < scanCount phMatcher s := by
  suffices H : ∀ n s, s.length ≤ n → HasMarker s → 0 < scanCount phMatcher s by
    exact fun s => H s.length s le_rfl
  intro n
  induction n with
  | zero =>
    intro s hs hM
    have : s = [] := List.length_eq_zero.mp (Nat.le_zero.mp hs)
    subst this
    exact absurd hM hasMarker_nil
  | succ n ih =>
    intro s hs hM
    cases s with
    | nil => exact absurd hM hasMarker_nil
    | cons c cs =>
      rcases hasMarker_cons_elim hM with ⟨hc, m, b, he, hm, hni⟩ | h2
      · have hfire : ∃ rep k, phMatcher (c :: cs) = some (rep, k) := by
          have hcc : (c :: cs) = markerHead ++ (m ++ (']' :: b)) := by
            have hmh : markerHead = '[' :: markerTail := by decide
            simp [hmh, hc, he]
          rw [hcc]
          unfold phMatcher
          have hpre : markerHead.isPrefixOf (markerHead ++ (m ++ (']' :: b))) = true := by
            rw [List.isPrefixOf_iff_prefix]; exact ⟨_, rfl⟩
          rw [hpre]
          simp only [if_true, List.drop_left]
          rw [splitClose?_complete hni]
          have hie : m.isEmpty = false := by
            cases m with
            | nil => exact absurd rfl hm
            | cons _ _ => rfl
          exact ⟨phDefault m, markerHead.length + m.length, by simp [hie]⟩
        obtain ⟨rep, k, hk⟩ := hfire
        rw [scanCount_cons_some hk]
        omega
      · cases hf' : phMatcher (c :: cs) with
        | some p =>
          obtain ⟨rep, k⟩ := p
          rw [scanCount_cons_some hf']
          omega
        | none =>
          rw [scanCount_cons_none hf']
          exact ih cs (by simp only [List.length_cons] at hs; omega) h2

/-- Step 4 as a whole: the seven case-insensitive literal replaces in
source order. -/
def fixTemplateVars (s : List Char) : List Char :=
  tvPairs.foldl (fun acc pr => scanRepl (ciLitMatcher pr.1 pr.2) acc) s

theorem fixTemplateVars_no_marker {s : List Char} (h : ¬ HasMarker s) :
    ¬ HasMarker (fixTemplateVars s) := by
  have H : ∀ (l : List (List Char × List Char)),
      (∀ p ∈ l, TameMatcher (ciLitMatcher p.1 p.2)) →
      ∀ t, ¬ HasMarker t →
        ¬ HasMarker (l.foldl (fun acc pr => scanRepl (ciLitMatcher pr.1 pr.2) acc) t) := by
    intro l
    induction l with
    | nil => intro _ t ht; simpa using ht
    | cons p ps ihp =>
      intro hall t ht
      simp only [List.foldl_cons]
      exact ihp (fun q hq => hall q (by simp [hq]))
        _ (scanRepl_preserves (hall p (by simp)) t ht)
  exact H tvPairs tvPairs_tame s h

/-- One applied fix in the polish change log (`{type, count, reason}`;
the dry-run and no-changes entries leave fields absent). -/
structure PolishChange where
  ctype : Option String
  count : Option Nat
  reason : String
deriving DecidableEq, Repr

/-- The deterministic polish fallback `manualPolishHTML`, steps 1–6 with
their change-log entries. -/
def manualPolishHTML (html : List Char) : List Char × List PolishChange :=
  let n1 := scanCount insuffMatcher html
  let s1 := if 0 < n1 then scanRepl insuffMatcher html else html
  let c1 : List PolishChange :=
    if 0 < n1 then
      [⟨some "fix_insufficient_evidence", some n1,
        "Replaced " ++ toString n1 ++
          " insufficient evidence markers with \"Data not available\""⟩]
    else []
  let n2 := scanCount fenceMatcher s1
  let s2 := if 0 < n2 then scanRepl fenceMatcher s1 else s1
  let c2 : List PolishChange :=
    if 0 < n2 then
      [⟨some "remove_markdown", some n2,
        "Removed " ++ toString n2 ++ " markdown code block markers"⟩]
    else []
  let n3 := scanCount phMatcher s2
  let s3 := if 0 < n3 then scanRepl phMatcher s2 else s2
  let c3 : List PolishChange :=
    if 0 < n3 then
      [⟨some "fix_placeholders", some n3,
        "Replaced " ++ toString n3 ++ " unfilled placeholders with default text"⟩]
    else []
  let n4 := scanCount tvDetectMatcher s3
  let s4 := if 0 < n4 then fixTemplateVars s3 else s3
  let c4 : List PolishChange :=
    if 0 < n4 then
      [⟨some "fix_template_vars", some n4,
        "Replaced " ++ toString n4 ++ " template variables with readable text"⟩]
    else []
  let p5 := punctLoop s4 0 0
  let s5 := p5.1
  let n5 := p5.2
  let c5 : List PolishChange :=
    if 0 < n5 then
      [⟨some "fix_punctuation", some n5,
        "Added missing punctuation to " ++ toString n5 ++ " sentences"⟩]
    else []
  let n6 := scanCount spaceMatcher s5
  let s6 := if 10 < n6 then scanRepl spaceMatcher s5 else s5
  let c6 : List PolishChange :=
    if 10 < n6 then [⟨some "fix_whitespace", some n6, "Normalized whitespace"⟩] else []
  let all := c1 ++ c2 ++ c3 ++ c4 ++ c5 ++ c6
  (s6,
    if all.isEmpty then
      [⟨some "no_changes", none, "HTML already clean, no manual fixes needed"⟩]
    else all)

/-- The output of the deterministic polish never contains a well-formed
placeholder marker, whatever the input. -/
theorem manualPolishHTML_no_marker (html : List Char) :
    ¬ HasMarker (manualPolishHTML html).1 := by
  unfold manualPolishHTML
  simp only []
  set s1 := if 0 < scanCount insuffMatcher html then scanRepl insuffMatcher html else html with hs1
  set s2 := if 0 < scanCount fenceMatcher s1 then scanRepl fenceMatcher s1 else s1 with hs2
  have h3 : ¬ HasMarker (if 0 < scanCount phMatcher s2 then scanRepl phMatcher s2 else s2) := by
    split_ifs with hn
    · exact scanRepl_ph_no_marker s2
    · intro hM
      have := scanCount_ph_pos s2 hM
      omega
  set s3 := if 0 < scanCount phMatcher s2 then scanRepl phMatcher s2 else s2 with hs3
  have h4 : ¬ HasMarker (if 0 < scanCount tvDetectMatcher s3 then fixTemplateVars s3 else s3) := by
    split_ifs
    · exact fixTemplateVars_no_marker h3
    · exact h3
  set s4 := if 0 < scanCount tvDetectMatcher s3 then fixTemplateVars s3 else s3 with hs4
  have h5 : ¬ HasMarker (punctLoop s4 0 0).1 := punctLoop_no_marker s4 0 0 h4
  set s5 := (punctLoop s4 0 0).1 with hs5
  have h6 : ¬ HasMarker (if 10 < scanCount spaceMatcher s5 then scanRepl spaceMatcher s5 else s5) := by
    split_ifs
    · exact scanRepl_preserves tame_space s5 h5
    · exact h5
  exact h6

/-! ### `stripMarkdown` and the LLM-path `polishHTML`

`stripMarkdown` applies `/^```(?:json|html|text|markdown)?\s*\n?/gim`
then `/\n?```$/gim` then `trim()`.  The `m` flag anchors `^`/`$` at line
boundaries; the greedy `\s*` swallows the optional trailing newline. -/

def mdTags : List (List Char) :=
  ["json".data, "html".data, "text".data, "markdown".data]

/-- Characters consumed beyond the three backticks by one opener match:
the optional (case-insensitive) language tag and the whitespace run. -/
def fenceExtra (tags : List (List Char)) (s : List Char) : Option Nat :=
  if "```".data.isPrefixOf s then
    let t := s.drop 3
    let tagLen : Nat :=
      match tags.find? (fun w => ciPre w t) with
      | some w => w.length
      | none => 0
    some (tagLen + ((t.drop tagLen).takeWhile jsSpace).length)
  else none

/-- Remove every line-anchored opening fence.  The boolean tracks
whether the current position is a line start (string start or right
after a newline); every step consumes at least one character, so
`length` fuel suffices. -/
def stripFenceOpensF (tags : List (List Char)) : Nat → List Char → Bool → List Char
  | 0, _, _ => []
  | _, [], _ => []
  | fuel + 1, c :: cs, atStart =>
    if atStart then
      match fenceExtra tags (c :: cs) with
      | some e =>
        stripFenceOpensF tags fuel (cs.drop (2 + e))
          ((((c :: cs).take (3 + e)).getLastD ' ') = '\n')
      | none => c :: stripFenceOpensF tags fuel cs (c = '\n')
    else c :: stripFenceOpensF tags fuel cs (c = '\n')

def stripFenceOpens (tags : List (List Char)) (s : List Char) (atStart : Bool) : List Char :=
  stripFenceOpensF tags s.length s atStart

/-- `$` of the `m` flag: end of string or just before a newline. -/
def lineEnd (t : List Char) : Bool :=
  t.isEmpty || t.head? = some '\n'

/-- Remove every line-end-anchored closing fence (`/\n?```$/gim`). -/
def stripFenceClosesF : Nat → List Char → List Char
  | 0, _ => []
  | _, [] => []
  | fuel + 1, c :: cs =>
    if c = '\n' && "```".data.isPrefixOf cs && lineEnd (cs.drop 3) then
      stripFenceClosesF fuel (cs.drop 3)
    else if c = '`' && "``".data.isPrefixOf cs && lineEnd (cs.drop 2) then
      stripFenceClosesF fuel (cs.drop 2)
    else c :: stripFenceClosesF fuel cs

def stripFenceCloses (s : List Char) : List Char :=
  stripFenceClosesF s.length s

def stripMarkdown (s : List Char) : List Char :=
  jsTrim (stripFenceCloses (stripFenceOpens mdTags s true))

/-- Plain-literal matcher, for the counting regexes of
`summarizeHTMLChanges`. -/
def litMatcher (pat : List Char) (s : List Char) : Option (List Char × Nat) :=
  if pat.isEmpty then none
  else if pat.isPrefixOf s then some ([], pat.length - 1) else none

/-- Split at the first `>` (for `/<[^>]*>/g`). -/
def splitGt? : List Char → Option (List Char × List Char)
  | [] => none
  | c :: cs =>
    if c = '>' then some ([], cs)
    else match splitGt? cs with
      | some (m, r) => some (c :: m, r)
      | none => none

/-- `/​<[^>]*>/g` tag removal used for the text-length diff. -/
def tagMatcher (s : List Char) : Option (List Char × Nat) :=
  match s with
  | '<' :: rest =>
    match splitGt? rest with
    | some (m, _) => some ([], 1 + m.length)
    | none => none
  | _ => none

def stripTags (s : List Char) : List Char := scanRepl tagMatcher s

/-- `summarizeHTMLChanges`.  The percentage figure embedded in the
`text_rewrite` reason uses floating-point `toFixed(1)` in the source and
is elided from the reason string here; the counts and thresholds are
exact. -/
def summarizeHTMLChanges (original polished : List Char) : List PolishChange :=
  let ib := scanCount (litMatcher "[INSUFFICIENT_EVIDENCE]".data) original
  let ia := scanCount (litMatcher "[INSUFFICIENT_EVIDENCE]".data) polished
  let c1 : List PolishChange :=
    if ia < ib then
      [⟨some "fix_insufficient_evidence", some (ib - ia),
        "Fixed " ++ toString (ib - ia) ++ " insufficient evidence markers"⟩]
    else []
  let mb := scanCount (litMatcher "```".data) original
  let ma := scanCount (litMatcher "```".data) polished
  let c2 : List PolishChange :=
    if ma < mb then
      [⟨some "remove_markdown", some (mb - ma),
        "Removed " ++ toString (mb - ma) ++ " markdown code block markers"⟩]
    else []
  let lo := (stripTags original).length
  let lp := (stripTags polished).length
  let ld := max lo lp - min lo lp
  let c3 : List PolishChange :=
    if 50 < ld then [⟨some "text_rewrite", none, "Text content changed"⟩] else []
  let all := c1 ++ c2 ++ c3
  if all.isEmpty then [⟨some "minor_polish", none, "Minor text improvements applied"⟩]
  else all

/-- Outcome of the one `callLLM` invocation inside `polishHTML`: the
returned text, or a thrown error (rate limits, exhausted fallbacks…). -/
inductive LLMCall where
  | ok (content : List Char)
  | err
deriving DecidableEq

/-- `polishHTML`: preferred LLM pass, falling back to
`manualPolishHTML` when dry-run is off and the prompt is missing, the
call throws, or the returned text lacks the document wrapper. -/
def polishHTML (dryRun promptFound : Bool) (call : LLMCall) (html : List Char) :
    List Char × List PolishChange :=
  if dryRun then (html, [⟨none, none, "Dry run - no changes made"⟩])
  else if !promptFound then manualPolishHTML html
  else
    match call with
    | .err => manualPolishHTML html
    | .ok content =>
      let polished := stripMarkdown content
      if containsSeq "<!DOCTYPE html>".data polished &&
          containsSeq "</html>".data polished then
        (polished, summarizeHTMLChanges html polished)
      else manualPolishHTML html

/-- Claim C1, counterexample: when the LLM polish pass returns a
document that passes the wrapper check but still contains a well-formed
`[LLM_PLACEHOLDER: …]` marker, `polishHTML` ships it — the "no markers
survive" guarantee fails on the accepted-LLM path. -/
theorem claim1_counterexample :
    HasMarker (polishHTML false true
      (.ok "<!DOCTYPE html><p>[LLM_PLACEHOLDER: x]</p></html>".data)
      "<!DOCTYPE html></html>".data).1 := by
  refine ⟨"<!DOCTYPE html><p>".data, " x".data, "</p></html>".data, ?_, ?_, ?_⟩
  · decide
  · decide
  · decide

/-- Claim C1, amended: the polish pass guarantees a marker-free output
only on its deterministic path — whenever `polishHTML` falls back (here:
the LLM call threw), and in general for `manualPolishHTML` on any input,
the result contains zero well-formed `[LLM_PLACEHOLDER: …]` markers. -/
theorem claim1_theorem :
    ∀ html : List Char,
      ¬ HasMarker (polishHTML false true .err html).1 ∧
      ¬ HasMarker (manualPolishHTML html).1 := by
  intro html
  constructor
  · show ¬ HasMarker (manualPolishHTML html).1
    exact manualPolishHTML_no_marker html
  · exact manualPolishHTML_no_marker html

/-! ### Claim C5: idempotence of the deterministic polish -/

/-- The synthetic entry returned when no fix applied. -/
def noChangesEntry : PolishChange :=
  ⟨some "no_changes", none, "HTML already clean, no manual fixes needed"⟩

/-- Claim C5, counterexample: `polish` is not idempotent.  Stripping the
code fence (step 2) out of `[INSUFFICIENT_EV```IDENCE]` manufactures a
fresh `[INSUFFICIENT_EVIDENCE]` token after step 1 has already run, so a
second application replaces it and the text changes again. -/
theorem claim5_counterexample :
    (manualPolishHTML (manualPolishHTML "[INSUFFICIENT_EV```IDENCE]".data).1).1 ≠
      (manualPolishHTML "[INSUFFICIENT_EV```IDENCE]".data).1 := by
  decide

/-- Claim C5, amended: on an input that is already clean — no
insufficient-evidence tokens, no fences, no placeholder markers, no
template-variable brackets, no repairable text nodes and at most ten
double-space runs — the deterministic polish returns the text unchanged
with only the synthetic no-changes entry, and hence is idempotent
there.  In general a second pass can make further changes
(`claim5_counterexample`). -/
theorem claim5_theorem (x : List Char)
    (h1 : scanCount insuffMatcher x = 0)
    (h2 : scanCount fenceMatcher x = 0)
    (h3 : scanCount phMatcher x = 0)
    (h4 : scanCount tvDetectMatcher x = 0)
    (h5 : punctLoop x 0 0 = (x, 0))
    (h6 : scanCount spaceMatcher x ≤ 10) :
    manualPolishHTML x = (x, [noChangesEntry]) ∧
    (manualPolishHTML (manualPolishHTML x).1).1 = (manualPolishHTML x).1 ∧
    (manualPolishHTML (manualPolishHTML x).1).2 = [noChangesEntry] := by
  have hmain : manualPolishHTML x = (x, [noChangesEntry]) := by
    unfold manualPolishHTML
    simp only [h1, h2, h3, h4, h5, Nat.lt_irrefl, if_false]
    simp only [h6, noChangesEntry]
    norm_num
    omega
  refine ⟨hmain, ?_, ?_⟩
  · rw [hmain, hmain]
  · rw [hmain, hmain]

theorem claim5_witness :
    manualPolishHTML "<p>Hi.</p>".data = ("<p>Hi.</p>".data, [noChangesEntry]) ∧
    (manualPolishHTML (manualPolishHTML "<p>Hi.</p>".data).1).1 =
      (manualPolishHTML "<p>Hi.</p>".data).1 ∧
    (manualPolishHTML (manualPolishHTML "<p>Hi.</p>".data).1).2 = [noChangesEntry] :=
  claim5_theorem "<p>Hi.</p>".data (by decide) (by decide) (by decide) (by decide)
    (by decide) (by decide)

/-! ### Claim C7: `PuterAdapter.getNextFallbackModel`

From `src/old/puter_adapter.js`: the ranked Puter model list and the
next-model lookup (`indexOf` returning −1 for unknown ids). -/

def PUTER_FALLBACK_ORDER : List String :=
  ["gpt-4o-mini", "claude-3-haiku", "gemini-2.0-flash", "llama-3.1-70b"]

/-- `getNextFallbackModel`: `indexOf` yields −1 for an unknown model, and
the guard `currentIdx < 0 || currentIdx >= length - 1` returns `null`
both for unknown ids and for the last model. -/
def getNextFallbackModelPuter (model : String) : Option String :=
  match PUTER_FALLBACK_ORDER.indexOf? model with
  | none => none
  | some i =>
    if i ≥ PUTER_FALLBACK_ORDER.length - 1 then none
    else PUTER_FALLBACK_ORDER.get? (i + 1)

/-- Claim C7, counterexample: an unknown model id produces a silent
`none` — no `UnknownModel` error condition exists in the code — even
though the id is neither in the chain nor its last element. -/
theorem claim7_counterexample :
    getNextFallbackModelPuter "nonexistent-model" = none ∧
    "nonexistent-model" ∉ PUTER_FALLBACK_ORDER ∧
    "nonexistent-model" ≠ "llama-3.1-70b" := by
  refine ⟨by decide, by decide, by decide⟩

/-- Claim C7, amended: the lookup returns `none` exactly for ids that
are unknown or last in the chain; unknown ids are silently treated like
the last model rather than signalling an error. -/
theorem claim7_theorem (m : String) :
    getNextFallbackModelPuter m = none ↔
      (m ∉ PUTER_FALLBACK_ORDER ∨ m = "llama-3.1-70b") := by
  by_cases h0 : m = "gpt-4o-mini"
  · subst h0; decide
  by_cases h1 : m = "claude-3-haiku"
  · subst h1; decide
  by_cases h2 : m = "gemini-2.0-flash"
  · subst h2; decide
  by_cases h3 : m = "llama-3.1-70b"
  · subst h3; decide
  have hnm : m ∉ PUTER_FALLBACK_ORDER := by
    simp [PUTER_FALLBACK_ORDER, h0, h1, h2, h3]
  have hidx : PUTER_FALLBACK_ORDER.indexOf? m = none := by
    rw [List.indexOf?_eq_none_iff]
    intro x hx hbeq
    exact hnm (by rwa [show x = m from by simpa using hbeq] at hx)
  constructor
  · intro _; exact Or.inl hnm
  · intro _
    unfold getNextFallbackModelPuter
    rw [hidx]

/-! ### JSON-like documents

The report JSON is modelled by a mutual inductive (arrays and objects
carry their own list types so that equality and recursion stay
kernel-computable).  `undefined` stands for JavaScript `undefined`,
including the holes a sparse array write leaves behind. -/

mutual
inductive JValue where
  | undefined
  | jnull
  | jbool (b : Bool)
  | jnum (n : Int)
  | jstr (s : List Char)
  | jarr (xs : JArr)
  | jobj (fs : JObj)
deriving DecidableEq
inductive JArr where
  | nil
  | cons (hd : JValue) (tl : JArr)
deriving DecidableEq
inductive JObj where
  | nil
  | cons (key : List Char) (val : JValue) (tl : JObj)
deriving DecidableEq
end

def alen : JArr → Nat
  | .nil => 0
  | .cons _ xs => alen xs + 1

def aget? : JArr → Nat → Option JValue
  | .nil, _ => none
  | .cons x _, 0 => some x
  | .cons _ xs, n + 1 => aget? xs n

/-- `arr[i] = v` including the JS behaviour of extending the array with
holes when `i ≥ length`. -/
def writeIdx : JArr → Nat → JValue → JArr
  | .nil, 0, nv => .cons nv .nil
  | .nil, n + 1, nv => .cons .undefined (writeIdx .nil n nv)
  | .cons _ xs, 0, nv => .cons nv xs
  | .cons x xs, n + 1, nv => .cons x (writeIdx xs n nv)

def olookup : JObj → List Char → Option JValue
  | .nil, _ => none
  | .cons k v fs, key => if k = key then some v else olookup fs key

/-- Object property write: replace in place, or append a new key
(insertion order preserved, as in JS). -/
def osetAssoc : JObj → List Char → JValue → JObj
  | .nil, key, nv => .cons key nv .nil
  | .cons k v fs, key, nv =>
    if k = key then .cons k nv fs else .cons k v (osetAssoc fs key nv)

/-! ### Path strings

`setAtPath`/`getAtPath` first rewrite `[i]` segments via
`path.replace(/\[(\d+)\]/g, '.$1')` and then `split('.')`. -/

/-- Matcher for `/\[(\d+)\]/g` with replacement `.$1`. -/
def bracketMatcher (s : List Char) : Option (List Char × Nat) :=
  match s with
  | '[' :: rest =>
    let ds := rest.takeWhile asciiDigit
    if ds.isEmpty then none
    else
      match rest.drop ds.length with
      | ']' :: _ => some ('.' :: ds, 1 + ds.length)
      | _ => none
  | _ => none

def parsePath (p : List Char) : List (List Char) :=
  (scanRepl bracketMatcher p).splitOn '.'

/-- `isNaN(str)` for the path-segment strings that occur here: the empty
string coerces to `0` (not NaN), digit runs are numbers, and anything
else is NaN.  (Exotic numeric literals — signs, decimals, exponents —
never appear as path segments in this pipeline.) -/
def jsIsNaNStr (s : List Char) : Bool :=
  !(s.isEmpty || s.all asciiDigit)

/-- Canonical array-index strings: `"0"`, or digits with no leading
zero (JS treats only the canonical form as an index). -/
def parseArrayIndex? (s : List Char) : Option Nat :=
  if s = ['0'] then some 0
  else if !s.isEmpty && s.all asciiDigit && s.head? ≠ some '0' then
    some (s.foldl (fun n c => n * 10 + (c.toNat - '0'.toNat)) 0)
  else none

/-- One property read `current[part]` (no read throws for the shapes the
walk can reach: the walk returns early on `undefined`/`null`). -/
def getStep : JValue → List Char → JValue
  | .jobj fs, k => (olookup fs k).getD .undefined
  | .jarr xs, k =>
    if k = "length".data then .jnum (alen xs)
    else
      match parseArrayIndex? k with
      | some i => (aget? xs i).getD .undefined
      | none => .undefined
  | .jstr s, k =>
    if k = "length".data then .jnum s.length
    else
      match parseArrayIndex? k with
      | some i =>
        match s.get? i with
        | some c => .jstr [c]
        | none => .undefined
      | none => .undefined
  | _, _ => .undefined

/-- `getAtPath`'s loop: return `undefined` as soon as the current value
is `undefined` or `null`, else keep indexing. -/
def getWalk : JValue → List (List Char) → JValue
  | v, [] => v
  | v, p :: ps =>
    if v = .undefined || v = .jnull then .undefined else getWalk (getStep v p) ps

def getAtPath (v : JValue) (path : List Char) : JValue :=
  getWalk v (parsePath path)

/-- One property write `current[part] = nv`.  `none` models the strict-
mode `TypeError` of assigning onto a primitive; a non-index property on
an array (including `length`) falls outside the JSON-like documents the
pipeline handles and is modelled the same way. -/
def setProp : JValue → List Char → JValue → Option JValue
  | .jobj fs, k, nv => some (.jobj (osetAssoc fs k nv))
  | .jarr xs, k, nv =>
    match parseArrayIndex? k with
    | some i => some (.jarr (writeIdx xs i nv))
    | none => none
  | _, _, _ => none

/-- `part in current`, which throws (`none`) on primitives; on arrays an
index is present when it is inside the bounds and not a hole. -/
def hasPart? : JValue → List Char → Option Bool
  | .jobj fs, k => some (olookup fs k).isSome
  | .jarr xs, k =>
    some (if k = "length".data then true
      else
        match parseArrayIndex? k with
        | some i =>
          match aget? xs i with
          | some .undefined => false
          | some _ => true
          | none => false
        | none => false)
  | _, _ => none

/-- The `setAtPath` walk: create a missing intermediate container (array
iff the next segment is numeric), descend, and write the final part. -/
def setWalk : JValue → List (List Char) → JValue → Option JValue
  | v, [], _ => some v
  | v, [last], nv => setProp v last nv
  | v, part :: next :: rest, nv => do
    let has ← hasPart? v part
    let v1 ← if has then pure v
      else setProp v part (if jsIsNaNStr next then .jobj .nil else .jarr .nil)
    let child := getStep v1 part
    let child' ← setWalk child (next :: rest) nv
    setProp v1 part child'

def setAtPath (v : JValue) (path : List Char) (nv : JValue) : Option JValue :=
  setWalk v (parsePath path) nv

/-- The domain on which the set/get round-trip is exact: every segment
reaches a fitting container (object for keys, array for canonical
indices; missing segments create fresh containers per the next
segment). -/
def setOkB : JValue → List (List Char) → Bool
  | _, [] => false
  | v, [last] =>
    match v with
    | .jobj _ => true
    | .jarr _ => (parseArrayIndex? last).isSome
    | _ => false
  | v, part :: next :: rest =>
    match v with
    | .jobj fs =>
      match olookup fs part with
      | some child => setOkB child (next :: rest)
      | none =>
        setOkB (if jsIsNaNStr next then .jobj .nil else .jarr .nil) (next :: rest)
    | .jarr xs =>
      match parseArrayIndex? part with
      | some i =>
        match aget? xs i with
        | some .undefined =>
          setOkB (if jsIsNaNStr next then .jobj .nil else .jarr .nil) (next :: rest)
        | some child => setOkB child (next :: rest)
        | none =>
          setOkB (if jsIsNaNStr next then .jobj .nil else .jarr .nil) (next :: rest)
      | none => false
    | _ => false

theorem olookup_osetAssoc_self :
    ∀ (fs : JObj) (k : List Char) (nv : JValue),
      olookup (osetAssoc fs k nv) k = some nv
  | .nil, k, nv => by simp [osetAssoc, olookup]
  | .cons k' v' fs, k, nv => by
    by_cases hk : k' = k
    · simp [osetAssoc, olookup, hk]
    · simp only [osetAssoc, if_neg hk, olookup, if_neg hk]
      exact olookup_osetAssoc_self fs k nv

theorem aget?_writeIdx_self :
    ∀ (xs : JArr) (i : Nat) (nv : JValue), aget? (writeIdx xs i nv) i = some nv
  | .nil, 0, _ => rfl
  | .nil, n + 1, nv => by
    simpa [writeIdx, aget?] using aget?_writeIdx_self .nil n nv
  | .cons _ _, 0, _ => rfl
  | .cons x xs, n + 1, nv => by
    simpa [writeIdx, aget?] using aget?_writeIdx_self xs n nv

theorem parseArrayIndex?_ne_length {k : List Char} {i : Nat}
    (h : parseArrayIndex? k = some i) : k ≠ "length".data := by
  intro hk
  have hn : parseArrayIndex? "length".data = none := by decide
  rw [hk, hn] at h
  simp at h

theorem setOkB_jnull (parts : List (List Char)) : setOkB .jnull parts = false := by
  match parts with
  | [] => rfl
  | [_] => rfl
  | _ :: _ :: _ => rfl

theorem setOkB_jbool (b : Bool) (parts : List (List Char)) :
    setOkB (.jbool b) parts = false := by
  match parts with
  | [] => rfl
  | [_] => rfl
  | _ :: _ :: _ => rfl

theorem setOkB_jnum (n : Int) (parts : List (List Char)) :
    setOkB (.jnum n) parts = false := by
  match parts with
  | [] => rfl
  | [_] => rfl
  | _ :: _ :: _ => rfl

theorem setOkB_jstr (s : List Char) (parts : List (List Char)) :
    setOkB (.jstr s) parts = false := by
  match parts with
  | [] => rfl
  | [_] => rfl
  | _ :: _ :: _ => rfl

theorem getWalk_jobj_cons (fs : JObj) (p : List Char) (ps : List (List Char)) :
    getWalk (.jobj fs) (p :: ps) = getWalk (getStep (.jobj fs) p) ps := by
  simp [getWalk]

theorem getWalk_jarr_cons (xs : JArr) (p : List Char) (ps : List (List Char)) :
    getWalk (.jarr xs) (p :: ps) = getWalk (getStep (.jarr xs) p) ps := by
  simp [getWalk]

/-- The set/get round trip on the `setOkB` domain. -/
theorem setWalk_roundTrip :
    ∀ (parts : List (List Char)) (v nv : JValue), setOkB v parts = true →
      ∃ w, setWalk v parts nv = some w ∧ getWalk w parts = nv := by
  intro parts
  induction parts with
  | nil => intro v nv h; simp [setOkB] at h
  | cons part tail ih =>
    intro v nv h
    cases tail with
    | nil =>
      -- final segment: a single property write
      cases v with
      | jobj fs =>
        refine ⟨.jobj (osetAssoc fs part nv), rfl, ?_⟩
        rw [getWalk_jobj_cons]
        simp [getStep, olookup_osetAssoc_self]
        rfl
      | jarr xs =>
        have hidx : (parseArrayIndex? part).isSome := by
          simpa [setOkB] using h
        obtain ⟨i, hi⟩ := Option.isSome_iff_exists.mp hidx
        refine ⟨.jarr (writeIdx xs i nv), ?_, ?_⟩
        · simp [setWalk, setProp, hi]
        · rw [getWalk_jarr_cons]
          simp [getStep, parseArrayIndex?_ne_length hi, hi, aget?_writeIdx_self]
          rfl
      | undefined => simp [setOkB] at h
      | jnull => simp [setOkB] at h
      | jbool b => simp [setOkB] at h
      | jnum n => simp [setOkB] at h
      | jstr s => simp [setOkB] at h
    | cons next rest =>
      cases v with
      | jobj fs =>
        cases hlk : olookup fs part with
        | some child =>
          have hok : setOkB child (next :: rest) = true := by
            have h' := h
            simp only [setOkB] at h'
            rwa [hlk] at h'
          obtain ⟨child', hset, hget⟩ := ih child nv hok
          refine ⟨.jobj (osetAssoc fs part child'), ?_, ?_⟩
          · simp [setWalk, hasPart?, hlk, getStep, hset, setProp]
          · rw [getWalk_jobj_cons]
            simp [getStep, olookup_osetAssoc_self]
            exact hget
        | none =>
          set fresh := (if jsIsNaNStr next then JValue.jobj .nil else JValue.jarr .nil)
            with hfresh
          have hok : setOkB fresh (next :: rest) = true := by
            have h' := h
            simp only [setOkB] at h'
            rwa [hlk] at h'
          obtain ⟨child', hset, hget⟩ := ih fresh nv hok
          refine ⟨.jobj (osetAssoc (osetAssoc fs part fresh) part child'), ?_, ?_⟩
          · simp [setWalk, hasPart?, hlk, setProp, getStep,
              olookup_osetAssoc_self, hset]
          · rw [getWalk_jobj_cons]
            simp [getStep, olookup_osetAssoc_self]
            exact hget
      | jarr xs =>
        have hidx : ∃ i, parseArrayIndex? part = some i := by
          cases hpi : parseArrayIndex? part with
          | some i => exact ⟨i, rfl⟩
          | none => simp [setOkB, hpi] at h
        obtain ⟨i, hi⟩ := hidx
        have hnl := parseArrayIndex?_ne_length hi
        cases hag : aget? xs i with
        | some child =>
          cases hchild : child with
          | undefined =>
            -- a hole: `in` is false, so a fresh container overwrites it
            have hok : setOkB
                (if jsIsNaNStr next then JValue.jobj .nil else JValue.jarr .nil)
                (next :: rest) = true := by
              have h' := h
              simp only [setOkB, hi, hag, hchild] at h'
              exact h'
            obtain ⟨child', hset, hget⟩ := ih _ nv hok
            refine ⟨.jarr (writeIdx (writeIdx xs i
              (if jsIsNaNStr next then JValue.jobj .nil else JValue.jarr .nil)) i child'),
              ?_, ?_⟩
            · simp [setWalk, hasPart?, hi, hag, hchild, hnl, setProp, getStep,
                aget?_writeIdx_self, hset]
            · rw [getWalk_jarr_cons]
              simp [getStep, hnl, hi, aget?_writeIdx_self]
              exact hget
          | jobj gs =>
            subst hchild
            have hok : setOkB (JValue.jobj gs) (next :: rest) = true := by
              have h' := h
              simp only [setOkB, hi, hag] at h'
              exact h'
            obtain ⟨child', hset, hget⟩ := ih _ nv hok
            have hhas : hasPart? (.jarr xs) part = some true := by
              simp [hasPart?, hnl, hi, hag]
            refine ⟨.jarr (writeIdx xs i child'), ?_, ?_⟩
            · simp [setWalk, hhas, getStep, hnl, hi, hag, setProp, hset]
            · rw [getWalk_jarr_cons]
              simp [getStep, hnl, hi, aget?_writeIdx_self]
              exact hget
          | jarr ys =>
            subst hchild
            have hok : setOkB (JValue.jarr ys) (next :: rest) = true := by
              have h' := h
              simp only [setOkB, hi, hag] at h'
              exact h'
            obtain ⟨child', hset, hget⟩ := ih _ nv hok
            have hhas : hasPart? (.jarr xs) part = some true := by
              simp [hasPart?, hnl, hi, hag]
            refine ⟨.jarr (writeIdx xs i child'), ?_, ?_⟩
            · simp [setWalk, hhas, getStep, hnl, hi, hag, setProp, hset]
            · rw [getWalk_jarr_cons]
              simp [getStep, hnl, hi, aget?_writeIdx_self]
              exact hget
          | jnull =>
            subst hchild
            have h' := h
            simp only [setOkB, hi, hag, setOkB_jnull] at h'
            exact Bool.noConfusion h'
          | jbool b =>
            subst hchild
            have h' := h
            simp only [setOkB, hi, hag, setOkB_jbool] at h'
            exact Bool.noConfusion h'
          | jnum n =>
            subst hchild
            have h' := h
            simp only [setOkB, hi, hag, setOkB_jnum] at h'
            exact Bool.noConfusion h'
          | jstr s =>
            subst hchild
            have h' := h
            simp only [setOkB, hi, hag, setOkB_jstr] at h'
            exact Bool.noConfusion h'
        | none =>
          have hok : setOkB
              (if jsIsNaNStr next then JValue.jobj .nil else JValue.jarr .nil)
              (next :: rest) = true := by
            have h' := h
            simp only [setOkB, hi, hag] at h'
            exact h'
          obtain ⟨child', hset, hget⟩ := ih _ nv hok
          refine ⟨.jarr (writeIdx (writeIdx xs i
            (if jsIsNaNStr next then JValue.jobj .nil else JValue.jarr .nil)) i child'),
            ?_, ?_⟩
          · simp [setWalk, hasPart?, hi, hag, hnl, setProp, getStep,
              aget?_writeIdx_self, hset]
          · rw [getWalk_jarr_cons]
            simp [getStep, hnl, hi, aget?_writeIdx_self]
            exact hget
      | undefined => simp [setOkB] at h
      | jnull => simp [setOkB] at h
      | jbool b => simp [setOkB] at h
      | jnum n => simp [setOkB] at h
      | jstr s => simp [setOkB] at h

/-- Claim C10, counterexample: when an intermediate segment holds a
primitive (here `obj.a` is a string), `setAtPath(obj, "a.b", v)` throws
a `TypeError` (strict mode) instead of completing, so no round trip
happens. -/
theorem claim10_counterexample :
    setAtPath (.jobj (.cons "a".data (.jstr "x".data) .nil)) "a.b".data
        (.jstr "v".data) = none ∧
    getAtPath (.jobj (.cons "a".data (.jstr "x".data) .nil)) "a.b".data =
      .undefined := by
  refine ⟨by decide, by decide⟩

/-- Claim C10, amended: the round trip `getAtPath (setAtPath obj p v) p
= v` holds provided every existing value along the path is a container
of the segment's kind (object for keys, array for canonical numeric
indices); missing segments create the right fresh containers, holes and
out-of-range indices included.  An existing primitive at an
intermediate or final segment makes the write throw instead. -/
theorem claim10_theorem (v nv : JValue) (p : List Char)
    (h : setOkB v (parsePath p) = true) :
    ∃ w, setAtPath v p nv = some w ∧ getAtPath w p = nv :=
  setWalk_roundTrip (parsePath p) v nv h

theorem claim10_witness :
    ∃ w, setAtPath (.jobj .nil) "a[2].b".data (.jstr "z".data) = some w ∧
      getAtPath w "a[2].b".data = .jstr "z".data :=
  claim10_theorem (.jobj .nil) (.jstr "z".data) "a[2].b".data (by decide)

/-! ### Array retarget (`fillPlaceholders`, lines 614–627)

`targetPath.match(/^(.+)\[\d+\]$/)`: the anchored pattern matches exactly
when the path ends in `[digits]` (a nonempty digit run directly between a
`[` and the final `]`) with a nonempty part before that bracket; group 1
is everything before the final index suffix. -/

def stripIndexSuffix? (p : List Char) : Option (List Char) :=
  match p.reverse with
  | ']' :: rest =>
    let ds := rest.takeWhile asciiDigit
    if ds.isEmpty then none
    else
      match rest.drop ds.length with
      | '[' :: pre => if pre.isEmpty then none else some pre.reverse
      | _ => none
  | _ => none

/-- Lines 616–623: the write target is the placeholder path, retargeted
one level up (dropping the final `[N]`) exactly when the prompt's output
type is `array_of_strings`, the parsed output is an array, and the path
matches `^(.+)\[\d+\]$`. -/
def retargetPath (isArrayOfStrings outputIsArray : Bool) (p : List Char) :
    List Char :=
  if isArrayOfStrings && outputIsArray then
    match stripIndexSuffix? p with
    | some pre => pre
    | none => p
  else p

/-- A three-element array of strings, the resolved value in P3. -/
def arr3 (s1 s2 s3 : List Char) : JValue :=
  .jarr (.cons (.jstr s1) (.cons (.jstr s2) (.cons (.jstr s3) .nil)))

/-- Any document whose `a.b` path reads as an array must be an object
holding an object holding that array: the `getAtPath` walk returns
`undefined` through every other shape. -/
theorem getAt_ab_structure (doc : JValue) (arr : JArr)
    (h : getAtPath doc "a.b".data = .jarr arr) :
    ∃ fs fs', doc = .jobj fs ∧ olookup fs "a".data = some (.jobj fs') ∧
      olookup fs' "b".data = some (.jarr arr) := by
  have hp : parsePath "a.b".data = ["a".data, "b".data] := by decide
  rw [getAtPath, hp] at h
  have hbL : "b".data ≠ "length".data := by decide
  have hbI : parseArrayIndex? "b".data = none := by decide
  have haL : "a".data ≠ "length".data := by decide
  have haI : parseArrayIndex? "a".data = none := by decide
  cases doc with
  | jobj fs =>
    rw [getWalk_jobj_cons] at h
    cases holk : olookup fs "a".data with
    | none => simp [getStep, holk, getWalk] at h
    | some c =>
      cases c with
      | jobj fs' =>
        rw [getStep, holk, Option.getD_some, getWalk_jobj_cons] at h
        cases holk' : olookup fs' "b".data with
        | none => simp [getStep, holk', getWalk] at h
        | some d =>
          simp only [getStep, holk', Option.getD_some, getWalk] at h
          exact ⟨fs, fs', rfl, holk, h ▸ holk'⟩
      | jarr xs => simp [getStep, holk, getWalk, hbL, hbI] at h
      | jstr s => simp [getStep, holk, getWalk, hbL, hbI] at h
      | undefined => simp [getStep, holk, getWalk] at h
      | jnull => simp [getStep, holk, getWalk] at h
      | jbool b => simp [getStep, holk, getWalk] at h
      | jnum n => simp [getStep, holk, getWalk] at h
  | jarr xs => simp [getWalk, getStep, haL, haI] at h
  | undefined => simp [getWalk] at h
  | jnull => simp [getWalk] at h
  | jbool b => simp [getWalk, getStep] at h
  | jnum n => simp [getWalk, getStep] at h
  | jstr s => simp [getWalk, getStep, haL, haI] at h

/-- Claim C6: for any document whose path `a.b` holds a singleton array
whose one element is a marker string, when the prompt's output type is
`array_of_strings` and the resolved output is an array of three strings,
the write target `a.b[0]` is retargeted one level up to `a.b`, and after
the set operation the value at `a.b` is the three-element array and
`a.b[0]` is its first element. -/
theorem claim6_theorem (doc : JValue) (m s1 s2 s3 : List Char)
    (hm : HasMarker m)
    (hsing : getAtPath doc "a.b".data = .jarr (.cons (.jstr m) .nil)) :
    retargetPath true true "a.b[0]".data = "a.b".data ∧
    ∃ w, setAtPath doc (retargetPath true true "a.b[0]".data)
        (arr3 s1 s2 s3) = some w ∧
      getAtPath w "a.b".data = arr3 s1 s2 s3 ∧
      getAtPath w "a.b[0]".data = .jstr s1 := by
  obtain ⟨fs, fs', hdoc, h1, h2⟩ := getAt_ab_structure doc _ hsing
  subst hdoc
  have hrt : retargetPath true true "a.b[0]".data = "a.b".data := by decide
  refine ⟨hrt, ?_⟩
  rw [hrt]
  have hp : parsePath "a.b".data = ["a".data, "b".data] := by decide
  have hp2 : parsePath "a.b[0]".data = ["a".data, "b".data, "0".data] := by
    decide
  have h0L : "0".data ≠ "length".data := by decide
  have h0I : parseArrayIndex? "0".data = some 0 := by decide
  refine ⟨.jobj (osetAssoc fs "a".data
      (.jobj (osetAssoc fs' "b".data (arr3 s1 s2 s3)))), ?_, ?_, ?_⟩
  · rw [setAtPath, hp]
    simp [setWalk, hasPart?, h1, getStep, setProp]
  · rw [getAtPath, hp, getWalk_jobj_cons]
    simp [getStep, olookup_osetAssoc_self, getWalk]
  · rw [getAtPath, hp2, getWalk_jobj_cons]
    simp [getStep, olookup_osetAssoc_self, getWalk, h0L, h0I, arr3, aget?]

def c6doc : JValue :=
  .jobj (.cons "a".data
    (.jobj (.cons "b".data
      (.jarr (.cons (.jstr "[LLM_PLACEHOLDER: key_findings]".data) .nil))
      .nil)) .nil)

/-! ### The `callLLM` retry loop (`llm_executor.js` lines 238–314)

The helpers `getNextFallbackModel`, `isRateLimitError` and
`parseRetryAfter` are imported from `model_config.js`, which is not in
the source tree.  Modelled from the spec: `getNextFallbackModel` walks a
ranked fallback chain (the in-repo analogue
`PuterAdapter.getNextFallbackModel` has the same shape);
`isRateLimitError` classifies the failure, here a distinct outcome
constructor; `parseRetryAfter` reads the signalled retry-after duration
or falls back to a fixed default, here a parameter. -/

def getNextFallbackModelC (chain : List String) (cur : String) :
    Option String :=
  match chain.indexOf? cur with
  | none => none
  | some i => chain.get? (i + 1)

/-- One fetch outcome, as classified by `callLLM`'s catch block. -/
inductive LLMOutcome where
  | ok (content : String)
  | rateLimited (retryAfter : Option Nat)
  | netErr
  | otherErr
deriving DecidableEq, Repr

/-- The executor state `callLLM` reads and mutates: the current-model
pointer, the recorded fallback transitions, plus observation logs of the
sleeps performed and the models actually fetched (in order). -/
structure CallState where
  currentModel : String
  fallbacks : List (String × String)
  sleeps : List Nat
  calls : List String
deriving DecidableEq, Repr

inductive CallResult where
  | success (content : String) (st : CallState)
  | thrown (lastErr : LLMOutcome) (st : CallState)
deriving DecidableEq, Repr

def stateOf : CallResult → CallState
  | .success _ st => st
  | .thrown _ st => st

def recordCall (st : CallState) : CallState :=
  { st with calls := st.calls ++ [st.currentModel] }

/-- `fallbackToNextModel` (lines 108–137): look up the next model; on
success move the pointer and push the transition. -/
def fallbackToNextModel (chain : List String) (st : CallState) :
    Bool × CallState :=
  match getNextFallbackModelC chain st.currentModel with
  | none => (false, st)
  | some next => (true, { st with
      currentModel := next,
      fallbacks := st.fallbacks ++ [(st.currentModel, next)] })

/-- The retry loop of `callLLM` (lines 242–306), fuelled because the
source resets the loop counter (`attempt = -1`) on a fallback.  Each
iteration checks the loop guard `attempt <= maxRetries`, performs the
fetch (recording the model called; the k-th fetch returns
`responses k`), and on failure follows the source's branches: a
rate-limit error with the `fallbackAttempted` flag still unset either
falls back (flag set, counter reset) or — when no next model exists —
sleeps the retry-after duration and continues on the same model, the
flag left unset; once the flag is set a rate-limit error falls through
to the retryable-network check and breaks; a network error below the
retry budget sleeps the linear backoff `5000 * (attempt + 1)`; anything
else breaks, and the loop's end rethrows the last error. -/
def callLoopF (chain : List String) (maxRetries dflt : Nat)
    (responses : Nat → LLMOutcome) :
    Nat → Nat → Bool → Nat → LLMOutcome → CallState → CallResult
  | 0, _, _, _, le, st => .thrown le st
  | fuel + 1, attempt, fbA, k, le, st =>
    if attempt > maxRetries then .thrown le st
    else
      let st1 := recordCall st
      match responses k with
      | .ok c => .success c st1
      | .rateLimited ra =>
        if fbA then .thrown (.rateLimited ra) st1
        else
          match fallbackToNextModel chain st1 with
          | (true, st2) =>
            callLoopF chain maxRetries dflt responses fuel 0 true (k + 1)
              (.rateLimited ra) st2
          | (false, st2) =>
            callLoopF chain maxRetries dflt responses fuel (attempt + 1) false
              (k + 1) (.rateLimited ra)
              { st2 with sleeps := st2.sleeps ++ [ra.getD dflt] }
      | .netErr =>
        if attempt < maxRetries then
          callLoopF chain maxRetries dflt responses fuel (attempt + 1) fbA
            (k + 1) .netErr
            { st1 with sleeps := st1.sleeps ++ [5000 * (attempt + 1)] }
        else .thrown .netErr st1
      | .otherErr => .thrown .otherErr st1

/-- One `callLLM` invocation: the loop starts at `attempt = 0` with the
fallback flag unset.  `2 * maxRetries + 4` iterations always suffice
(at most `maxRetries + 2` guard checks before the single possible
counter reset and `maxRetries + 2` after). -/
def callLLMModel (chain : List String) (maxRetries dflt : Nat)
    (responses : Nat → LLMOutcome) (st : CallState) : CallResult :=
  callLoopF chain maxRetries dflt responses (2 * maxRetries + 4) 0 false 0
    .otherErr st

def c2chain : List String := ["model-a", "model-b", "model-c"]

/-- Claim C2, counterexample (Scenario B): a 3-model chain with an
adapter that always signals a rate limit records exactly ONE fallback
transition — not two — performs no sleep at all, never reaches the
third model, and throws from the second: the `fallbackAttempted` flag
is never reset within a call, so the second rate-limit error skips the
whole fallback/sleep block and breaks. -/
theorem claim2_counterexample :
    callLLMModel c2chain 2 60000 (fun _ => .rateLimited none)
        ⟨"model-a", [], [], []⟩ =
      .thrown (.rateLimited none)
        ⟨"model-b", [("model-a", "model-b")], [], ["model-a", "model-b"]⟩ := by
  decide

theorem callLoopF_fallbacks_length (chain : List String) (mr dflt : Nat)
    (rsp : Nat → LLMOutcome) :
    ∀ fuel attempt fbA k le st,
      (stateOf (callLoopF chain mr dflt rsp fuel attempt fbA k le st)).fallbacks.length
        ≤ st.fallbacks.length + (cond fbA 0 1) := by
  intro fuel
  induction fuel with
  | zero => intro attempt fbA k le st; simp [callLoopF, stateOf]
  | succ fuel ih =>
    intro attempt fbA k le st
    rw [callLoopF]
    split
    · simp [stateOf]
    · cases hrk : rsp k with
      | ok c => simp [hrk, stateOf, recordCall]
      | rateLimited ra =>
        simp only [hrk]
        cases fbA with
        | true => simp [stateOf, recordCall]
        | false =>
          rw [if_neg (by decide)]
          cases hfb : getNextFallbackModelC chain (recordCall st).currentModel with
          | none =>
            simp only [fallbackToNextModel, hfb]
            have h := ih (attempt + 1) false (k + 1) (.rateLimited ra)
              { recordCall st with sleeps := (recordCall st).sleeps ++ [ra.getD dflt] }
            simpa [recordCall] using h
          | some next =>
            simp only [fallbackToNextModel, hfb]
            have h := ih 0 true (k + 1) (.rateLimited ra)
              { recordCall st with
                currentModel := next,
                fallbacks := (recordCall st).fallbacks
                  ++ [((recordCall st).currentModel, next)] }
            simp only [recordCall] at h ⊢
            simp only [List.length_append, List.length_cons, List.length_nil,
              cond_true, cond_false] at h ⊢
            omega
      | netErr =>
        simp only [hrk]
        split
        · have h := ih (attempt + 1) fbA (k + 1) .netErr
            { recordCall st with sleeps := (recordCall st).sleeps ++ [5000 * (attempt + 1)] }
          simpa [recordCall] using h
        · simp [stateOf, recordCall]
      | otherErr => simp [hrk, stateOf, recordCall]

theorem callLoopF_lastModel (chain : List String) (mr dflt : Nat)
    (ra : Option Nat) :
    ∀ fuel attempt k le st,
      getNextFallbackModelC chain st.currentModel = none →
      attempt ≤ mr → mr + 2 - attempt ≤ fuel →
      callLoopF chain mr dflt (fun _ => .rateLimited ra) fuel attempt false k le st
        = .thrown (.rateLimited ra)
            { st with
              sleeps := st.sleeps ++ List.replicate (mr + 1 - attempt) (ra.getD dflt),
              calls := st.calls ++ List.replicate (mr + 1 - attempt) st.currentModel } := by
  intro fuel
  induction fuel with
  | zero => intro attempt k le st _ hle hf; omega
  | succ fuel ih =>
    intro attempt k le st hnone hle hf
    rw [callLoopF]
    rw [if_neg (by omega)]
    simp only [fallbackToNextModel, recordCall, hnone]
    rw [if_neg (by decide)]
    by_cases heq : attempt = mr
    · obtain ⟨fuel', rfl⟩ : ∃ f, fuel = f + 1 := ⟨fuel - 1, by omega⟩
      rw [callLoopF, if_pos (by omega)]
      have h1 : mr + 1 - attempt = 1 := by omega
      simp [h1]
    · have h := ih (attempt + 1) (k + 1) (.rateLimited ra)
        { st with
          calls := st.calls ++ [st.currentModel],
          sleeps := st.sleeps ++ [ra.getD dflt] }
        (by simpa using hnone) (by omega) (by omega)
      rw [h]
      have h1 : mr + 1 - attempt = (mr + 1 - (attempt + 1)) + 1 := by omega
      simp [h1, List.replicate_succ, List.append_assoc]

/-- Claim C2, amended: within one `callLLM` invocation at most one
fallback transition ever occurs, however many rate-limit failures
happen (the `fallbackAttempted` flag is set on the first transition and
never reset, so later rate-limit errors break out instead of falling
back or sleeping); the sleep-and-retry path runs only when the very
first rate-limit failure already finds no next model, in which case the
call sleeps the retry-after duration once per remaining attempt
(`maxRetries + 1` times in total), refetches the same last model each
time, and then throws the rate-limit error. -/
theorem claim2_theorem (chain chainL : List String) (mr dflt : Nat)
    (rsp : Nat → LLMOutcome) (ra : Option Nat) (cur curL : String)
    (hlast : getNextFallbackModelC chainL curL = none) :
    (stateOf (callLLMModel chain mr dflt rsp
        ⟨cur, [], [], []⟩)).fallbacks.length ≤ 1 ∧
    callLLMModel chainL mr dflt (fun _ => .rateLimited ra) ⟨curL, [], [], []⟩
      = .thrown (.rateLimited ra)
          ⟨curL, [], List.replicate (mr + 1) (ra.getD dflt),
            List.replicate (mr + 1) curL⟩ := by
  constructor
  · have h := callLoopF_fallbacks_length chain mr dflt rsp (2 * mr + 4) 0
      false 0 .otherErr ⟨cur, [], [], []⟩
    simpa [callLLMModel] using h
  · have h := callLoopF_lastModel chainL mr dflt ra (2 * mr + 4) 0 0
      .otherErr ⟨curL, [], [], []⟩ hlast (by omega) (by omega)
    simpa [callLLMModel] using h

theorem claim2_witness :
    (stateOf (callLLMModel c2chain 1 5 (fun _ => .ok "x")
        ⟨"model-a", [], [], []⟩)).fallbacks.length ≤ 1 ∧
    callLLMModel ["solo"] 1 5 (fun _ => .rateLimited (some 7))
        ⟨"solo", [], [], []⟩
      = .thrown (.rateLimited (some 7))
          ⟨"solo", [], List.replicate 2 7, List.replicate 2 "solo"⟩ :=
  claim2_theorem c2chain ["solo"] 1 5 (fun _ => .ok "x") (some 7)
    "model-a" "solo" (by decide)

/-! ### Fallback monotonicity (claim C4) -/

/-- The rank of a model in the fallback chain (`indexOf`); unknown
models rank past the end. -/
def rankOf (chain : List String) (m : String) : Nat :=
  (List.indexOf? m chain).getD chain.length

theorem indexOf?_of_get? :
    ∀ (l : List String) (j : Nat) (b : String), l.Nodup →
      l.get? j = some b → List.indexOf? b l = some j := by
  intro l
  induction l with
  | nil => intro j b _ h; simp at h
  | cons a t ih =>
    intro j b hnd h
    rw [List.nodup_cons] at hnd
    cases j with
    | zero =>
      simp only [List.get?] at h
      injection h with h
      rw [List.indexOf?_cons, if_pos (by simp [h])]
    | succ j =>
      have ht : t.get? j = some b := by simpa [List.get?] using h
      have hb : b ∈ t := List.get?_mem ht
      have hne : ¬((a == b) = true) := by
        intro hab
        exact hnd.1 (beq_iff_eq.mp hab ▸ hb)
      rw [List.indexOf?_cons, if_neg hne, ih j b hnd.2 ht]
      rfl

/-- With a duplicate-free chain, a successful next-model lookup moves
the rank forward by exactly one. -/
theorem getNext_rank (chain : List String) (hnd : chain.Nodup)
    {cur next : String} (h : getNextFallbackModelC chain cur = some next) :
    rankOf chain next = rankOf chain cur + 1 := by
  rw [getNextFallbackModelC] at h
  cases hidx : List.indexOf? cur chain with
  | none => rw [hidx] at h; cases h
  | some i =>
    rw [hidx] at h
    have h2 := indexOf?_of_get? chain (i + 1) next hnd h
    rw [rankOf, rankOf, hidx, h2]
    rfl

/-- The monotonic-degradation invariant: the ranks of the models
fetched so far form a non-decreasing sequence that never exceeds the
current pointer's rank, and every recorded fallback transition steps
the rank forward by exactly one. -/
def MonoState (chain : List String) (st : CallState) : Prop :=
  List.Chain' (· ≤ ·) (st.calls.map (rankOf chain)) ∧
  (∀ r ∈ (st.calls.map (rankOf chain)).getLast?,
    r ≤ rankOf chain st.currentModel) ∧
  ∀ p ∈ st.fallbacks, rankOf chain p.2 = rankOf chain p.1 + 1

theorem MonoState_recordCall {chain : List String} {st : CallState}
    (h : MonoState chain st) : MonoState chain (recordCall st) := by
  obtain ⟨h1, h2, h3⟩ := h
  refine ⟨?_, ?_, ?_⟩
  · rw [recordCall]
    simp only [List.map_append, List.map_cons, List.map_nil]
    rw [List.chain'_append]
    refine ⟨h1, by simp [List.chain'_nil], ?_⟩
    intro x hx y hy
    simp only [List.head?, Option.mem_def, Option.some.injEq] at hy
    exact hy ▸ h2 x hx
  · intro r hr
    rw [recordCall] at hr
    simp only [List.map_append, List.map_cons, List.map_nil,
      List.getLast?_concat, Option.mem_def, Option.some.injEq] at hr
    exact hr ▸ le_refl _
  · exact h3

theorem callLoopF_mono (chain : List String) (hnd : chain.Nodup)
    (mr dflt : Nat) (rsp : Nat → LLMOutcome) :
    ∀ fuel attempt fbA k le st, MonoState chain st →
      MonoState chain
        (stateOf (callLoopF chain mr dflt rsp fuel attempt fbA k le st)) ∧
      rankOf chain st.currentModel ≤ rankOf chain
        (stateOf (callLoopF chain mr dflt rsp fuel attempt fbA k le st)).currentModel := by
  intro fuel
  induction fuel with
  | zero => intro attempt fbA k le st hst; exact ⟨hst, le_refl _⟩
  | succ fuel ih =>
    intro attempt fbA k le st hst
    rw [callLoopF]
    split
    · exact ⟨hst, le_refl _⟩
    · cases hrk : rsp k with
      | ok c =>
        dsimp only [stateOf]
        exact ⟨MonoState_recordCall hst, le_refl _⟩
      | rateLimited ra =>
        cases fbA with
        | true =>
          dsimp only [stateOf]
          exact ⟨MonoState_recordCall hst, le_refl _⟩
        | false =>
          dsimp only
          cases hfb : getNextFallbackModelC chain (recordCall st).currentModel with
          | none =>
            simp only [fallbackToNextModel, hfb]
            have hst' : MonoState chain
                { recordCall st with
                  sleeps := (recordCall st).sleeps ++ [ra.getD dflt] } :=
              MonoState_recordCall hst
            exact ih (attempt + 1) false (k + 1) (.rateLimited ra) _ hst'
          | some next =>
            simp only [fallbackToNextModel, hfb]
            have hrank : rankOf chain next =
                rankOf chain st.currentModel + 1 := getNext_rank chain hnd hfb
            have hrec := MonoState_recordCall hst
            have hst' : MonoState chain
                { recordCall st with
                  currentModel := next,
                  fallbacks := (recordCall st).fallbacks
                    ++ [((recordCall st).currentModel, next)] } := by
              obtain ⟨i1, i2, i3⟩ := hrec
              refine ⟨i1, ?_, ?_⟩
              · intro r hr
                refine le_trans (i2 r hr) ?_
                have hcur : (recordCall st).currentModel = st.currentModel :=
                  rfl
                rw [hcur, hrank]
                omega
              · intro p hp
                rw [List.mem_append] at hp
                cases hp with
                | inl hp => exact i3 p hp
                | inr hp =>
                  simp only [List.mem_singleton] at hp
                  rw [hp]
                  exact hrank
            have hfinal := ih 0 true (k + 1) (.rateLimited ra) _ hst'
            refine ⟨hfinal.1, le_trans ?_ hfinal.2⟩
            simp only [recordCall]
            rw [hrank]
            omega
      | netErr =>
        dsimp only
        split
        · have hst' : MonoState chain
              { recordCall st with
                sleeps := (recordCall st).sleeps ++ [5000 * (attempt + 1)] } :=
            MonoState_recordCall hst
          exact ih (attempt + 1) fbA (k + 1) .netErr _ hst'
        · dsimp only [stateOf]
          exact ⟨MonoState_recordCall hst, le_refl _⟩
      | otherErr =>
        dsimp only [stateOf]
        exact ⟨MonoState_recordCall hst, le_refl _⟩

/-- A run: successive `callLLM` invocations threading the executor
state (the current-model pointer and histories persist across calls,
as instance fields do). -/
def runCalls (chain : List String) (mr dflt : Nat) :
    List (Nat → LLMOutcome) → CallState → CallState
  | [], st => st
  | rsp :: rest, st =>
    runCalls chain mr dflt rest (stateOf (callLLMModel chain mr dflt rsp st))

theorem runCalls_mono (chain : List String) (hnd : chain.Nodup)
    (mr dflt : Nat) :
    ∀ (rsps : List (Nat → LLMOutcome)) (st : CallState),
      MonoState chain st →
      MonoState chain (runCalls chain mr dflt rsps st) ∧
      rankOf chain st.currentModel ≤
        rankOf chain (runCalls chain mr dflt rsps st).currentModel := by
  intro rsps
  induction rsps with
  | nil => intro st hst; exact ⟨hst, le_refl _⟩
  | cons rsp rest ih =>
    intro st hst
    have h1 := callLoopF_mono chain hnd mr dflt rsp (2 * mr + 4) 0 false 0
      .otherErr st hst
    have h2 := ih (stateOf (callLLMModel chain mr dflt rsp st)) h1.1
    exact ⟨h2.1, le_trans h1.2 h2.2⟩

/-- Claim C4: over any run of `callLLM` invocations against a
duplicate-free fallback chain, the current-model pointer's rank in the
chain never decreases, every recorded fallback transition moves the
rank forward by exactly one, and the sequence of models actually
fetched has non-decreasing rank — so once the run has moved past a
model it never calls that model again. -/
theorem claim4_theorem (chain : List String) (mr dflt : Nat)
    (rsps : List (Nat → LLMOutcome)) (start : String)
    (hnd : chain.Nodup) :
    List.Chain' (· ≤ ·)
      ((runCalls chain mr dflt rsps ⟨start, [], [], []⟩).calls.map
        (rankOf chain)) ∧
    rankOf chain start ≤ rankOf chain
      (runCalls chain mr dflt rsps ⟨start, [], [], []⟩).currentModel ∧
    ∀ p ∈ (runCalls chain mr dflt rsps ⟨start, [], [], []⟩).fallbacks,
      rankOf chain p.2 = rankOf chain p.1 + 1 := by
  have h0 : MonoState chain ⟨start, [], [], []⟩ := by
    refine ⟨List.chain'_nil, ?_, ?_⟩ <;> intro r hr <;> simp at hr
  have h := runCalls_mono chain hnd mr dflt rsps ⟨start, [], [], []⟩ h0
  exact ⟨h.1.1, h.2, h.1.2.2⟩

theorem claim4_witness :
    List.Chain' (· ≤ ·)
      ((runCalls ["m1", "m2"] 0 3
          [fun _ => .rateLimited none, fun _ => .ok "y"]
          ⟨"m1", [], [], []⟩).calls.map (rankOf ["m1", "m2"])) ∧
    rankOf ["m1", "m2"] "m1" ≤ rankOf ["m1", "m2"]
      (runCalls ["m1", "m2"] 0 3
        [fun _ => .rateLimited none, fun _ => .ok "y"]
        ⟨"m1", [], [], []⟩).currentModel ∧
    ∀ p ∈ (runCalls ["m1", "m2"] 0 3
        [fun _ => .rateLimited none, fun _ => .ok "y"]
        ⟨"m1", [], [], []⟩).fallbacks,
      rankOf ["m1", "m2"] p.2 = rankOf ["m1", "m2"] p.1 + 1 :=
  claim4_theorem ["m1", "m2"] 0 3
    [fun _ => .rateLimited none, fun _ => .ok "y"] "m1" (by decide)

/-! ### Rate-limit spacing in `fillPlaceholders` (lines 531–600)

One `lastRequestTime` variable is declared per `fillPlaceholders` run
and shared by every placeholder iteration.  Before each `callLLM` the
loop reads the clock, and when the elapsed time since the last request
is below the current model's delay it sleeps for the difference; the
call's start time is then recorded into the shared variable.
`getModelDelay` lives in the absent `model_config.js`; modelled from
the spec as the `delays` parameter (`delayFor`).  The simulation's
clock advances by `pre` between iterations (context building etc.) and
by `dur` during the call itself, both arbitrary. -/

structure TimingState where
  clock : Nat
  last : Nat
  records : List (String × Nat)
deriving DecidableEq, Repr

def rateStep (delays : String → Nat) (st : TimingState) (model : String)
    (pre dur : Nat) : TimingState :=
  let now := st.clock + pre
  let start :=
    if 0 < st.last ∧ now - st.last < delays model then st.last + delays model
    else now
  { clock := start + dur, last := start,
    records := st.records ++ [(model, start)] }

def fillTimingSim (delays : String → Nat) :
    List (String × Nat × Nat) → TimingState → TimingState
  | [], st => st
  | (m, pre, dur) :: rest, st =>
    fillTimingSim delays rest (rateStep delays st m pre dur)

/-- Invariant of the rate-limit loop: the clock is positive and at
least the shared `lastRequestTime`; the most recent record carries that
time (which is positive); and every adjacent pair of recorded calls is
spaced by at least the later call's model delay. -/
def TimingOk (delays : String → Nat) (st : TimingState) : Prop :=
  0 < st.clock ∧ st.last ≤ st.clock ∧
  (∀ r ∈ st.records.getLast?, 0 < st.last ∧ r.2 = st.last) ∧
  List.Chain' (fun a b => a.2 + delays b.1 ≤ b.2) st.records

theorem rateStep_ok (delays : String → Nat) (st : TimingState)
    (model : String) (pre dur : Nat) (h : TimingOk delays st) :
    TimingOk delays (rateStep delays st model pre dur) := by
  obtain ⟨hc, hl, hlast, hch⟩ := h
  unfold TimingOk rateStep
  dsimp only
  by_cases hg : 0 < st.last ∧ st.clock + pre - st.last < delays model
  · rw [if_pos hg]
    refine ⟨by omega, by omega, ?_, ?_⟩
    · intro r hr
      rw [List.getLast?_concat] at hr
      simp only [Option.mem_def, Option.some.injEq] at hr
      refine ⟨by omega, ?_⟩
      rw [← hr]
    · rw [List.chain'_append]
      refine ⟨hch, by simp [List.chain'_nil], ?_⟩
      intro a ha y hy
      simp only [List.head?, Option.mem_def, Option.some.injEq] at hy
      have h1 := hlast a ha
      rw [← hy]
      dsimp only
      omega
  · rw [if_neg hg]
    refine ⟨by omega, by omega, ?_, ?_⟩
    · intro r hr
      rw [List.getLast?_concat] at hr
      simp only [Option.mem_def, Option.some.injEq] at hr
      refine ⟨by omega, ?_⟩
      rw [← hr]
    · rw [List.chain'_append]
      refine ⟨hch, by simp [List.chain'_nil], ?_⟩
      intro a ha y hy
      simp only [List.head?, Option.mem_def, Option.some.injEq] at hy
      have h1 := hlast a ha
      rw [← hy]
      dsimp only
      omega

theorem fillTimingSim_ok (delays : String → Nat) :
    ∀ (jobs : List (String × Nat × Nat)) (st : TimingState),
      TimingOk delays st → TimingOk delays (fillTimingSim delays jobs st) := by
  intro jobs
  induction jobs with
  | nil => intro st h; exact h
  | cons job rest ih =>
    intro st h
    obtain ⟨m, pre, dur⟩ := job
    exact ih _ (rateStep_ok delays st m pre dur h)

/-- Claim C8: in the per-placeholder fill loop, the single shared
`lastRequestTime` clock spaces every two consecutive `callLLM` start
times by at least the later call's model delay — in particular two
consecutive calls against the same model start at least
`delayFor(model)` apart — for every delay table, job list, and positive
starting clock. -/
theorem claim8_theorem (delays : String → Nat)
    (jobs : List (String × Nat × Nat)) (c0 : Nat) (h0 : 0 < c0) :
    List.Chain' (fun a b => a.2 + delays b.1 ≤ b.2)
      (fillTimingSim delays jobs ⟨c0, 0, []⟩).records ∧
    ∀ i m t1 t2,
      (fillTimingSim delays jobs ⟨c0, 0, []⟩).records.get? i = some (m, t1) →
      (fillTimingSim delays jobs ⟨c0, 0, []⟩).records.get? (i + 1)
        = some (m, t2) →
      t1 + delays m ≤ t2 := by
  have hinit : TimingOk delays ⟨c0, 0, []⟩ := by
    unfold TimingOk
    dsimp only
    exact ⟨h0, by omega, by intro r hr; simp at hr, List.chain'_nil⟩
  have h := fillTimingSim_ok delays jobs ⟨c0, 0, []⟩ hinit
  refine ⟨h.2.2.2, ?_⟩
  intro i m t1 t2 h1 h2
  have hch := h.2.2.2
  rw [List.chain'_iff_get] at hch
  rw [List.get?_eq_some] at h1 h2
  obtain ⟨hb1, he1⟩ := h1
  obtain ⟨hb2, he2⟩ := h2
  have := hch i (by omega)
  rw [he1, he2] at this
  exact this

theorem claim8_witness :
    List.Chain' (fun a b => a.2 + (fun _ => 5) b.1 ≤ b.2)
      (fillTimingSim (fun _ => 5) [("m", 1, 2), ("m", 0, 0)]
        ⟨1, 0, []⟩).records ∧
    ∀ i m t1 t2,
      (fillTimingSim (fun _ => 5) [("m", 1, 2), ("m", 0, 0)]
        ⟨1, 0, []⟩).records.get? i = some (m, t1) →
      (fillTimingSim (fun _ => 5) [("m", 1, 2), ("m", 0, 0)]
        ⟨1, 0, []⟩).records.get? (i + 1) = some (m, t2) →
      t1 + (fun _ => 5) m ≤ t2 :=
  claim8_theorem (fun _ => 5) [("m", 1, 2), ("m", 0, 0)] 1 (by decide)

/-! ### Input-document preservation in `fillPlaceholders` (lines 531–545)

`const filledReport = JSON.parse(JSON.stringify(reportJson))`: the
standard JSON round-trip deep clone.  Its JS quirks are kept:
`undefined`-valued object properties are dropped and `undefined` array
elements become `null`.  Every subsequent mutation in the loop body
targets `filledReport` (`this.setAtPath(filledReport, targetPath,
output)`), never `reportJson`, and the per-placeholder `try/catch`
swallows a throwing write. -/

mutual
def jsonCloneV : JValue → JValue
  | .undefined => .jnull
  | .jnull => .jnull
  | .jbool b => .jbool b
  | .jnum n => .jnum n
  | .jstr s => .jstr s
  | .jarr xs => .jarr (jsonCloneA xs)
  | .jobj fs => .jobj (jsonCloneO fs)
def jsonCloneA : JArr → JArr
  | .nil => .nil
  | .cons x xs => .cons (jsonCloneV x) (jsonCloneA xs)
def jsonCloneO : JObj → JObj
  | .nil => .nil
  | .cons k v fs =>
    match v with
    | .undefined => jsonCloneO fs
    | v => .cons k (jsonCloneV v) (jsonCloneO fs)
end

/-- One loop iteration's effect on the documents: the iteration either
leaves them alone (missing prompt mapping or registry entry, or a
thrown `callLLM`, all `continue`) or writes the resolved output at the
retargeted path into the working copy, a throwing write swallowed by
the `catch`. -/
inductive FillEvent where
  | skip
  | write (path : List Char) (isArrayOfStrings outputIsArray : Bool)
      (out : JValue)

def fillStepDoc (work : JValue) : FillEvent → JValue
  | .skip => work
  | .write p isA isArr out =>
    match setAtPath work (retargetPath isA isArr p) out with
    | some w => w
    | none => work

/-- The fill loop threading the pair (caller's object, working copy):
only the working copy is ever written. -/
def fillLoop : List FillEvent → JValue × JValue → JValue × JValue
  | [], st => st
  | e :: es, (orig, work) => fillLoop es (orig, fillStepDoc work e)

def fillPlaceholdersSim (doc : JValue) (events : List FillEvent) :
    JValue × JValue :=
  fillLoop events (doc, jsonCloneV doc)

theorem fillLoop_fst :
    ∀ (events : List FillEvent) (st : JValue × JValue),
      (fillLoop events st).1 = st.1 := by
  intro events
  induction events with
  | nil => intro st; rfl
  | cons e es ih =>
    intro st
    obtain ⟨orig, work⟩ := st
    rw [fillLoop]
    exact ih _

/-- Claim C9: `fillPlaceholders` fills a JSON deep clone of its
argument and returns that copy, so the caller's document is unchanged
by the run whatever the per-placeholder events were — placeholders
resolved, iterations skipped, or writes that threw and were caught. -/
theorem claim9_theorem (doc : JValue) (events : List FillEvent) :
    (fillPlaceholdersSim doc events).1 = doc ∧
    (fillPlaceholdersSim doc events).2
      = events.foldl fillStepDoc (jsonCloneV doc) := by
  constructor
  · exact fillLoop_fst events (doc, jsonCloneV doc)
  · rw [fillPlaceholdersSim]
    generalize jsonCloneV doc = w
    induction events generalizing w with
    | nil => rfl
    | cons e es ih =>
      rw [fillLoop, List.foldl_cons]
      exact ih _

/-! ### Batch parse-failure behaviour (`part_004` lines 398–470) -/

/-- `\s` for the fence regexes. -/
def jsWhite (c : Char) : Bool := jsSpace c

/-- One match of `/^(three backticks)(?:json)?\s*\n?/im` at a
line-start position: returns the number of characters consumed. -/
def fenceOpenJAt (s : List Char) : Option Nat :=
  if ("```".data).isPrefixOf s then
    let r1 := s.drop 3
    let n2 := if ciPre "json".data r1 then 4 else 0
    let r2 := r1.drop n2
    let ws := r2.takeWhile jsWhite
    some (3 + n2 + ws.length)
  else none

def stripOpenJF : Nat → Bool → List Char → List Char
  | 0, _, _ => []
  | _ + 1, _, [] => []
  | fuel + 1, atLS, c :: cs =>
    if atLS then
      match fenceOpenJAt (c :: cs) with
      | some k =>
        stripOpenJF fuel (((c :: cs).take k).getLastD ' ' = '\n')
          ((c :: cs).drop k)
      | none => c :: stripOpenJF fuel (c = '\n') cs
    else c :: stripOpenJF fuel (c = '\n') cs

def stripOpenJ (s : List Char) : List Char := stripOpenJF s.length true s

def lineEndAt : List Char → Bool
  | [] => true
  | '\n' :: _ => true
  | _ => false

/-- One match of `/\n?(three backticks)$/im` at the current position
(`$` is end of line or of input); the greedy `\n?` is tried first. -/
def fenceCloseJAt (s : List Char) : Option Nat :=
  if ("\n```".data).isPrefixOf s && lineEndAt (s.drop 4) then some 4
  else if ("```".data).isPrefixOf s && lineEndAt (s.drop 3) then some 3
  else none

def stripCloseJF : Nat → List Char → List Char
  | 0, _ => []
  | _ + 1, [] => []
  | fuel + 1, c :: cs =>
    match fenceCloseJAt (c :: cs) with
    | some k => stripCloseJF fuel ((c :: cs).drop k)
    | none => c :: stripCloseJF fuel cs

def stripCloseJ (s : List Char) : List Char := stripCloseJF s.length s

/-- `cleaned.match(/\x7b[\s\S]*\x7d/)`: greedy — from the first opening
brace to the last closing brace, if the latter comes after the
former. -/
def extractBraces? (s : List Char) : Option (List Char) :=
  let pre := s.dropWhile (· ≠ '{')
  match pre with
  | [] => none
  | _ :: _ =>
    let rev := pre.reverse.dropWhile (· ≠ '}')
    match rev with
    | [] => none
    | _ :: _ => some rev.reverse

/-- `BatchLLMExecutor.parseJSON` (lines 398–412): strip fence opens and
closes, trim, extract the outermost brace span, and hand it to
`JSON.parse` — modelled as the oracle `jparse`, `none` covering both a
missing brace span and a `JSON.parse` throw (the caller catches
either). -/
def parseJSONB (jparse : List Char → Option JValue) (text : List Char) :
    Option JValue :=
  match extractBraces? (jsTrim (stripCloseJ (stripOpenJ text))) with
  | some m => jparse m
  | none => none

inductive BatchResult where
  | thrownCallFailed (callsUsed : Nat)
  | thrownInvalidJSON (callsUsed : Nat)
  | okDoc (doc : JValue) (callsUsed : Nat)
deriving DecidableEq

/-- `fillAllNarratives` (lines 417–470): stage 1 parses the generation
call's output, throwing `LLM returned invalid JSON` on failure with no
retry; stage 2 (unless skipped) makes the refinement call, whose own
throw propagates, but whose parse failure is absorbed, keeping the
stage-1 content; stage 3 maps the surviving content onto a clone of the
report (`applyGeneratedContent`, the `apply` parameter).  The k-th
`callLLM` invocation yields `responses k` (`none` = it threw), and the
result records how many invocations were made. -/
def fillAllNarrativesSim (jparse : List Char → Option JValue)
    (apply : JValue → JValue → JValue) (skipRefinement : Bool)
    (doc : JValue) (responses : Nat → Option (List Char)) : BatchResult :=
  match responses 0 with
  | none => .thrownCallFailed 1
  | some gen =>
    match parseJSONB jparse gen with
    | none => .thrownInvalidJSON 1
    | some generated =>
      if skipRefinement then .okDoc (apply doc generated) 1
      else
        match responses 1 with
        | none => .thrownCallFailed 2
        | some ref =>
          match parseJSONB jparse ref with
          | none => .okDoc (apply doc generated) 2
          | some refined => .okDoc (apply doc refined) 2

def c3jparse : List Char → Option JValue := fun m =>
  if m = "\x7bok\x7d".data then some (.jnum 1) else none

def c3responses : Nat → Option (List Char) := fun n =>
  if n = 0 then some "the model rambled and returned no json at all".data
  else some "\x7bok\x7d".data

/-- Claim C3, counterexample (Scenario C): the generation response is
unparseable, and the next response would parse — yet the batch fill
makes no second call: it throws `LLM returned invalid JSON` after
exactly one call, and no document, unchanged or otherwise, is
returned. -/
theorem claim3_counterexample :
    fillAllNarrativesSim c3jparse (fun _ g => g) false (.jobj .nil)
        c3responses = .thrownInvalidJSON 1 ∧
    parseJSONB c3jparse "\x7bok\x7d".data = some (.jnum 1) := by
  refine ⟨by decide, by decide⟩

/-- Claim C3, amended: a parse failure of the batch generation call is
never retried — `fillAllNarratives` throws `LLM returned invalid JSON`
after exactly one LLM call and returns no document at all (the input
document is not returned unchanged; the call site gets an exception);
only a parse failure of the refinement call is absorbed, in which case
the run completes with the document filled from the stage-1 content
after exactly two calls. -/
theorem claim3_theorem (jparse : List Char → Option JValue)
    (apply : JValue → JValue → JValue) (doc : JValue)
    (rsp rsp2 : Nat → Option (List Char)) (gen gen2 ref : List Char)
    (g1 : JValue)
    (h0 : rsp 0 = some gen) (hbad : parseJSONB jparse gen = none)
    (h2 : rsp2 0 = some gen2) (hg2 : parseJSONB jparse gen2 = some g1)
    (h2r : rsp2 1 = some ref) (hrb : parseJSONB jparse ref = none) :
    fillAllNarrativesSim jparse apply false doc rsp
      = .thrownInvalidJSON 1 ∧
    fillAllNarrativesSim jparse apply false doc rsp2
      = .okDoc (apply doc g1) 2 := by
  constructor
  · simp only [fillAllNarrativesSim, h0, hbad]
  · simp only [fillAllNarrativesSim, h2, hg2, h2r, hrb]
    rfl

def c3responses2 : Nat → Option (List Char) := fun n =>
  if n = 0 then some "\x7bok\x7d".data
  else some "still not json".data

theorem claim3_witness :
    fillAllNarrativesSim c3jparse (fun _ g => g) false (.jobj .nil)
        c3responses = .thrownInvalidJSON 1 ∧
    fillAllNarrativesSim c3jparse (fun _ g => g) false (.jobj .nil)
        c3responses2 = .okDoc (.jnum 1) 2 :=
  claim3_theorem c3jparse (fun _ g => g) (.jobj .nil) c3responses
    c3responses2 "the model rambled and returned no json at all".data
    "\x7bok\x7d".data "still not json".data (.jnum 1)
    (by decide) (by decide) (by decide) (by decide) (by decide) (by decide)

theorem claim6_witness :
    retargetPath true true "a.b[0]".data = "a.b".data ∧
    ∃ w, setAtPath c6doc (retargetPath true true "a.b[0]".data)
        (arr3 "x".data "y".data "z".data) = some w ∧
      getAtPath w "a.b".data = arr3 "x".data "y".data "z".data ∧
      getAtPath w "a.b[0]".data = .jstr "x".data :=
  claim6_theorem c6doc "[LLM_PLACEHOLDER: key_findings]".data
    "x".data "y".data "z".data
    ⟨[], " key_findings".data, [], by decide, by decide, by decide⟩
    (by decide)

end AiAudit
